import Mathlib

/-!
Verification of the SSTable `Builder` (kvengine, `table/sstable/builder.rs`)

A shallow embedding of the SSTable builder.  Byte buffers are `List Nat`
(each element a byte value `< 256`), machine integers are `Nat` with an
explicit `% 2^w` at the points where the source casts to a fixed width.
The Rust code writes into growable buffers; here every write is modelled
as an explicit functional update.
-/

namespace SSTable

/-! Section: Little-endian encodings -/

/-- Little-endian encoding of the low 16 bits of `x` (as in `put_u16_le`). -/
def u16le (x : Nat) : List Nat := [x % 256, x / 256 % 256]

/-- Little-endian encoding of the low 32 bits of `x` (as in `put_u32_le`). -/
def u32le (x : Nat) : List Nat :=
  [x % 256, x / 256 % 256, x / 2 ^ 16 % 256, x / 2 ^ 24 % 256]

/-- Little-endian encoding of the low 64 bits of `x` (as in `put_u64_le`). -/
def u64le (x : Nat) : List Nat :=
  [x % 256, x / 256 % 256, x / 2 ^ 16 % 256, x / 2 ^ 24 % 256,
   x / 2 ^ 32 % 256, x / 2 ^ 40 % 256, x / 2 ^ 48 % 256, x / 2 ^ 56 % 256]

/-- Read a little-endian number back from a byte list. -/
def leVal : List Nat → Nat
  | [] => 0
  | b :: bs => b + 256 * leVal bs

/-! Section: External collaborators, modelled

The CRC, hash and filter libraries are external crates, not part of this
repository's sources. -/

/-- One step of the bitwise CRC-32C computation (Castagnoli polynomial,
reflected representation `0x82F63B78`). -/
def crc32cByte (crc b : Nat) : Nat :=
  let x0 := crc ^^^ (b % 256)
  let step := fun (x : Nat) =>
    if x % 2 = 1 then (x / 2) ^^^ 0x82F63B78 else x / 2
  step (step (step (step (step (step (step (step x0)))))))

/-- Modelled from the spec: `crc32c::crc32c` from the external `crc32c`
crate — CRC-32 with the Castagnoli polynomial over a byte slice. -/
def crc32c (data : List Nat) : Nat :=
  (data.foldl crc32cByte 0xFFFFFFFF) ^^^ 0xFFFFFFFF

/-- Modelled from the spec: `farmhash::fingerprint64` from the external
`farmhash` crate — an unspecified, stable, deterministic 64-bit
fingerprint of a byte string (used only to feed the membership filter). -/
def farmhashFingerprint64 (key : List Nat) : Nat :=
  key.foldl (fun h b => (h * 1099511628211 + b + 1) % 2 ^ 64) 14695981039346656037 % 2 ^ 64

/-- Modelled from the spec: `xorf::BinaryFuse8::try_from` followed by
`bincode::serialize` — a fallible filter constructor over 64-bit
fingerprints.  Construction fails for example on duplicate fingerprints;
on success the filter serializes to an opaque deterministic byte string.
Modelled as: succeed exactly on duplicate-free inputs, serializing to
the concatenation of the fingerprints. -/
def binaryFuse8TryFrom (hashes : List Nat) : Option (List Nat) :=
  if hashes.Nodup then some (hashes.flatMap u64le) else none

/-! Section: Constants (from the source) -/

def CRC32_CASTAGNOLI : Nat := 1

/-- The property key `"smallest"` as UTF-8 bytes. -/
def PROP_KEY_SMALLEST : List Nat := [115, 109, 97, 108, 108, 101, 115, 116]

/-- The property key `"biggest"` as UTF-8 bytes. -/
def PROP_KEY_BIGGEST : List Nat := [98, 105, 103, 103, 101, 115, 116]

def EXTRA_END : Nat := 255

def EXTRA_FILTER : Nat := 1

def EXTRA_FILTER_TYPE_BINARY_FUSE_8 : Nat := 1

def NO_COMPRESSION : Nat := 0

def TABLE_FORMAT : Nat := 1

def MAGIC_NUMBER : Nat := 2940551257

def META_HAS_OLD : Nat := 2

/-! Section: `Value` (external contract)

Modelled from the spec: `Value` lives in `table.rs`, outside the selected
sources.  It carries `meta` (byte flags), `version` (u64), `user_meta`
(byte string of length ≤ 255) and `value` (byte string), and exposes
`encoded_size` and an `encode`/`decode` pair.  The encoding is opaque to
the builder; we fix the natural layout
`meta ‖ version(8, LE) ‖ user_meta_len(1) ‖ user_meta ‖ value`. -/

structure Value where
  meta : Nat
  version : Nat
  user_meta : List Nat
  value : List Nat
  deriving Repr, DecidableEq

namespace Value

def encoded_size (v : Value) : Nat :=
  10 + v.user_meta.length + v.value.length

def encode (v : Value) : List Nat :=
  [v.meta % 256] ++ u64le v.version ++ [v.user_meta.length % 256] ++
    v.user_meta ++ v.value

def decode (b : List Nat) : Value :=
  { meta := b.getD 0 0
    version := leVal ((b.drop 1).take 8)
    user_meta := (b.drop 10).take (b.getD 9 0)
    value := b.drop (10 + b.getD 9 0) }

/-- A value whose fields fit their machine widths. -/
def WF (v : Value) : Prop :=
  v.meta < 256 ∧ v.version < 2 ^ 64 ∧ v.user_meta.length < 256

instance : DecidablePred WF := fun v => by
  unfold WF; infer_instance

end Value

/-! Section: `EntrySlice`

An append-only byte container with a parallel end-offset array; entry `i`
spans `[end_offs[i-1], end_offs[i])` of `buf`. -/

/-- The slice `l[s..e]` of a byte list. -/
def bytesSlice (l : List Nat) (s e : Nat) : List Nat := (l.take e).drop s

structure EntrySlice where
  buf : List Nat
  end_offs : List Nat
  deriving Repr, DecidableEq

namespace EntrySlice

def new : EntrySlice := ⟨[], []⟩

def append (es : EntrySlice) (data : List Nat) : EntrySlice :=
  ⟨es.buf ++ data, es.end_offs ++ [es.buf.length + data.length]⟩

/-- Note `append_value` resizes the buffer by `encoded_size` bytes and encodes
the value in place; `Value.encode` writes exactly `encoded_size` bytes, so
this is an append of the encoding. -/
def append_value (es : EntrySlice) (v : Value) : EntrySlice :=
  es.append v.encode

def length (es : EntrySlice) : Nat := es.end_offs.length

def get_entry (es : EntrySlice) (i : Nat) : List Nat :=
  bytesSlice es.buf (if 0 < i then es.end_offs.getD (i - 1) 0 else 0)
    (es.end_offs.getD i 0)

def get_last (es : EntrySlice) : List Nat := es.get_entry (es.length - 1)

def size (es : EntrySlice) : Nat := es.buf.length + es.end_offs.length * 4

def reset (_es : EntrySlice) : EntrySlice := ⟨[], []⟩

/-! Section: Representation: an `EntrySlice` built by appends holds a list of
byte-string chunks. -/

/-- Cumulative end offsets of a chunk list, starting at `acc`. -/
def endOffsFrom (acc : Nat) : List (List Nat) → List Nat
  | [] => []
  | c :: cs => (acc + c.length) :: endOffsFrom (acc + c.length) cs

/-- Means `es` represents the chunk list `cs`. -/
def Rep (es : EntrySlice) (cs : List (List Nat)) : Prop :=
  es.buf = cs.flatten ∧ es.end_offs = endOffsFrom 0 cs

/-- Sum of the chunk lengths of the first `n` chunks. -/
def sumLen (cs : List (List Nat)) : Nat := (cs.map List.length).sum

end EntrySlice

/-! Section: `key_diff_idx` -/

/-- Index of the first byte where `k1` and `k2` differ, i.e. the length of
their longest common prefix. -/
def key_diff_idx : List Nat → List Nat → Nat
  | a :: as, b :: bs => if a = b then key_diff_idx as bs + 1 else 0
  | _, _ => 0

/-! Section: `BlockAddress` and `Footer` -/

structure BlockAddress where
  origin_fid : Nat
  origin_off : Nat
  curr_off : Nat
  deriving Repr, DecidableEq

def BlockAddress.new (fid offset : Nat) : BlockAddress :=
  ⟨fid, offset, offset⟩

/-- Value of `mem::size_of::<Footer>()`: four `u32` (16 bytes), two `u8` (2), one
`u16` (2) and one `u32` (4), all naturally aligned with no padding —
24 bytes in total. -/
def FOOTER_SIZE : Nat := 24

structure Footer where
  old_data_offset : Nat
  index_offset : Nat
  old_index_offset : Nat
  properties_offset : Nat
  compression_type : Nat
  checksum_type : Nat
  table_format_version : Nat
  magic : Nat
  deriving Repr, DecidableEq

namespace Footer

def default : Footer := ⟨0, 0, 0, 0, 0, 0, 0, 0⟩

/-- The source maps the struct verbatim onto its 20 in-memory bytes
(`slice::from_raw_parts`); on the little-endian targets this crate
supports that is each field in declaration order, little-endian,
with no padding (cf. spec §3 and §9). -/
def marshal (f : Footer) : List Nat :=
  u32le f.old_data_offset ++ u32le f.index_offset ++
    u32le f.old_index_offset ++ u32le f.properties_offset ++
    [f.compression_type % 256, f.checksum_type % 256] ++
    u16le f.table_format_version ++ u32le f.magic

def data_len (f : Footer) : Nat := f.old_data_offset

def old_data_len (f : Footer) : Nat := f.index_offset - f.old_data_offset

def index_len (f : Footer) : Nat := f.old_index_offset - f.index_offset

def old_index_len (f : Footer) : Nat :=
  f.properties_offset - f.old_index_offset

def properties_len (f : Footer) (table_size : Nat) : Nat :=
  table_size - f.properties_offset - FOOTER_SIZE

end Footer

/-! Section: `BlockBuffer` -/

structure BlockBuffer where
  tmp_keys : EntrySlice
  tmp_vals : EntrySlice
  old_vers : List Nat
  entry_sizes : List Nat
  size : Nat
  deriving Repr, DecidableEq

def BlockBuffer.empty : BlockBuffer :=
  ⟨EntrySlice.new, EntrySlice.new, [], [], 0⟩

/-- Function `reset` truncates every component to zero. -/
def BlockBuffer.reset (_b : BlockBuffer) : BlockBuffer := BlockBuffer.empty

/-! Section: `BlockBuilder` -/

structure BlockBuilder where
  buf : List Nat
  block : BlockBuffer
  block_keys : EntrySlice
  block_addrs : List BlockAddress
  deriving Repr, DecidableEq

namespace BlockBuilder

def empty : BlockBuilder := ⟨[], BlockBuffer.empty, EntrySlice.new, []⟩

def same_last_key (bb : BlockBuilder) (key : List Nat) : Bool :=
  if bb.block.tmp_keys.length > 0 then
    bb.block.tmp_keys.get_last == key
  else
    false

def set_last_entry_old_ver_if_zero (bb : BlockBuilder) (ver : Nat) :
    BlockBuilder :=
  let last_old_ver_idx := bb.block.old_vers.length - 1
  if bb.block.old_vers.getD last_old_ver_idx 0 = 0 then
    let last_entry_size_idx := bb.block.entry_sizes.length - 1
    { bb with block := { bb.block with
        old_vers := bb.block.old_vers.set last_old_ver_idx ver
        entry_sizes := bb.block.entry_sizes.set last_entry_size_idx
          (bb.block.entry_sizes.getD last_entry_size_idx 0 + 8) } }
  else
    bb

def add_entry (bb : BlockBuilder) (key : List Nat) (val : Value) :
    BlockBuilder :=
  let entry_size := 2 + key.length + val.encoded_size
  { bb with block :=
      { tmp_keys := bb.block.tmp_keys.append key,
        tmp_vals := bb.block.tmp_vals.append_value val,
        old_vers := bb.block.old_vers ++ [0],
        entry_sizes := bb.block.entry_sizes ++ [entry_size],
        size := bb.block.size + entry_size } }

/-- The bytes `build_entry` emits for entry `i` of the staged block. -/
def build_entry_bytes (block : BlockBuffer) (i common_prefix_len : Nat) :
    List Nat :=
  let key := block.tmp_keys.get_entry i
  let key_suffix := key.drop common_prefix_len
  let v := Value.decode (block.tmp_vals.get_entry i)
  let old_ver := block.old_vers.getD i 0
  -- `meta |= META_HAS_OLD` when an old version exists, else
  -- `meta &= !META_HAS_OLD` (`!2u8 = 253`): the flag from an old table
  -- must be normalized.
  let meta := if old_ver ≠ 0 then v.meta ||| META_HAS_OLD else v.meta &&& 253
  u16le key_suffix.length ++ key_suffix ++ [meta % 256] ++ u64le v.version ++
    (if old_ver ≠ 0 then u64le old_ver else []) ++
    [v.user_meta.length % 256] ++ v.user_meta ++ v.value

/-- The entry-offset table: one `u32` per entry, the running offset
accumulating `entry_sizes[i] - common_prefix_len` (entry sizes were
computed with the full key, so the common prefix is subtracted once per
entry).  The loop runs over the `entry_sizes` array. -/
def entryOffsetAcc (cpl : Nat) : Nat → List Nat → List Nat
  | _, [] => []
  | off, s :: ss => u32le off ++ entryOffsetAcc cpl (off + (s - cpl)) ss

def get_block_common_prefix_len (bb : BlockBuilder) : Nat :=
  key_diff_idx (bb.block.tmp_keys.get_entry 0) bb.block.tmp_keys.get_last

/-- The body of a finished block: everything after the 4-byte checksum
slot — entry count, entry-offset table, common prefix length and bytes,
then the entry records. -/
def blockBody (block : BlockBuffer) : List Nat :=
  let num_entries := block.tmp_keys.length
  let common_prefix_len :=
    key_diff_idx (block.tmp_keys.get_entry 0) block.tmp_keys.get_last
  u32le num_entries ++ entryOffsetAcc common_prefix_len 0 block.entry_sizes ++
    u16le common_prefix_len ++ (block.tmp_keys.get_entry 0).take common_prefix_len ++
    (List.range num_entries).flatMap
      (fun i => build_entry_bytes block i common_prefix_len)

/-- Function `finish_block` pushes a 4-byte placeholder, emits the block body by
appends only, computes CRC32C over the body and backpatches the
placeholder — in sum it appends `u32le checksum ++ body`.  It records the
block's first key and its start offset (`buf.len()` before the write,
cast to `u32`), then resets the staging block. -/
def finish_block (bb : BlockBuilder) (fid checksum_tp : Nat) : BlockBuilder :=
  let body := blockBody bb.block
  let checksum := if checksum_tp = CRC32_CASTAGNOLI then crc32c body else 0
  { buf := bb.buf ++ u32le checksum ++ body
    block := bb.block.reset
    block_keys := bb.block_keys.append (bb.block.tmp_keys.get_entry 0)
    block_addrs :=
      bb.block_addrs ++ [BlockAddress.new fid (bb.buf.length % 2 ^ 32)] }

def get_index_common_prefix_len (bb : BlockBuilder) : Nat :=
  key_diff_idx (bb.block_keys.get_entry 0) bb.block_keys.get_last

def reset_all (_bb : BlockBuilder) : BlockBuilder := empty

/-- The filter extra record: on successful Binary Fuse 8 construction,
`EXTRA_FILTER`, the filter type, a `u32` length and the serialized
filter; on failure only a warning is logged and nothing is emitted. -/
def build_filter_bytes (key_hashes : List Nat) : List Nat :=
  match binaryFuse8TryFrom key_hashes with
  | some bin =>
      [EXTRA_FILTER, EXTRA_FILTER_TYPE_BINARY_FUSE_8] ++ u32le bin.length ++ bin
  | none => []

/-- Body of the index section (everything after the 4-byte checksum
slot). -/
def indexBody (bb : BlockBuilder) (base_off : Nat) (key_hashes : List Nat) :
    List Nat :=
  let num_blocks := bb.block_addrs.length
  let common_prefix_len :=
    if num_blocks > 0 then bb.get_index_common_prefix_len else 0
  u32le num_blocks ++
    entryOffsetAcc common_prefix_len 0
      ((List.range num_blocks).map (fun i => (bb.block_keys.get_entry i).length)) ++
    bb.block_addrs.flatMap (fun a =>
      u64le a.origin_fid ++ u32le (a.origin_off + base_off) ++
        u32le (a.curr_off + base_off)) ++
    u16le common_prefix_len ++
    (if common_prefix_len > 0 then
      (bb.block_keys.get_entry 0).take common_prefix_len
    else []) ++
    u32le (bb.block_keys.buf.length - num_blocks * common_prefix_len) ++
    (List.range num_blocks).flatMap
      (fun i => (bb.block_keys.get_entry i).drop common_prefix_len) ++
    (if key_hashes.length > 0 then build_filter_bytes key_hashes else []) ++
    [EXTRA_END]

/-- Function `build_index` truncates `buf`, writes a 4-byte checksum placeholder,
emits the index body by appends, then backpatches the CRC32C of
everything after the placeholder — in sum `buf` becomes
`u32le checksum ++ body`. -/
def build_index (bb : BlockBuilder) (base_off checksum_tp : Nat)
    (key_hashes : List Nat) : BlockBuilder :=
  let body := indexBody bb base_off key_hashes
  let checksum := if checksum_tp = CRC32_CASTAGNOLI then crc32c body else 0
  { bb with buf := u32le checksum ++ body }

end BlockBuilder

/-! Section: Top-level `Builder` -/

/-- Option `bloom_fpr: f64` is plumbed but never consumed (the binary fuse
filter ignores it), so the option is omitted from the model. -/
structure TableBuilderOptions where
  block_size : Nat
  max_table_size : Nat
  deriving Repr, DecidableEq

def TableBuilderOptions.default : TableBuilderOptions :=
  ⟨64 * 1024, 16 * 1024 * 1024⟩

structure BuildResult where
  id : Nat
  smallest : List Nat
  biggest : List Nat
  deriving Repr, DecidableEq

structure Builder where
  fid : Nat
  block_builder : BlockBuilder
  old_builder : BlockBuilder
  block_size : Nat
  checksum_tp : Nat
  key_hashes : List Nat
  smallest : List Nat
  biggest : List Nat
  deriving Repr, DecidableEq

namespace Builder

def new (fid : Nat) (opt : TableBuilderOptions) : Builder :=
  { fid := fid
    block_builder := BlockBuilder.empty
    old_builder := BlockBuilder.empty
    block_size := opt.block_size
    checksum_tp := CRC32_CASTAGNOLI
    key_hashes := []
    smallest := []
    biggest := [] }

def reset (b : Builder) (fid : Nat) : Builder :=
  { b with
    fid := fid,
    block_builder := b.block_builder.reset_all,
    old_builder := b.old_builder.reset_all,
    key_hashes := [],
    smallest := [],
    biggest := [] }

/-- One property record: `key_len (u16 LE) ‖ key ‖ val_len (u32 LE) ‖ val`. -/
def add_property (buf key val : List Nat) : List Nat :=
  buf ++ u16le key.length ++ key ++ u32le val.length ++ val

def add (b : Builder) (key : List Nat) (val : Value) : Builder :=
  if b.block_builder.same_last_key key then
    { b with
      block_builder := b.block_builder.set_last_entry_old_ver_if_zero val.version
      old_builder := b.old_builder.add_entry key val }
  else
    -- Only try to finish blocks when the key differs from the last one.
    let b1 :=
      if b.block_builder.block.size > b.block_size then
        { b with block_builder := b.block_builder.finish_block b.fid b.checksum_tp }
      else b
    let b2 :=
      if b1.old_builder.block.size > b1.block_size then
        { b1 with old_builder := b1.old_builder.finish_block b1.fid b1.checksum_tp }
      else b1
    { b2 with
      block_builder := b2.block_builder.add_entry key val
      key_hashes := b2.key_hashes ++ [farmhashFingerprint64 key]
      smallest := if b2.smallest.length = 0 then b2.smallest ++ key else b2.smallest }

def estimated_size (b : Builder) : Nat :=
  let size := b.block_builder.buf.length + b.old_builder.buf.length +
    b.block_builder.block.size + b.old_builder.block.size
  size + size / 32

def is_empty (b : Builder) : Bool := b.smallest.length == 0

def get_smallest (b : Builder) : List Nat := b.smallest

def get_biggest (b : Builder) : List Nat := b.biggest

/-- The properties section: a 4-byte checksum slot, the `"smallest"` and
`"biggest"` property records, then the CRC32C of everything after the
slot backpatched into it. -/
def build_properties_bytes (b : Builder) : List Nat :=
  let body := add_property (add_property [] PROP_KEY_SMALLEST b.smallest)
    PROP_KEY_BIGGEST b.biggest
  (if b.checksum_tp = CRC32_CASTAGNOLI then u32le (crc32c body) else u32le 0) ++
    body

/-- The opening phase of `finish`: if the current builder has an open
block, record its last staged key as `biggest` and finish the block;
likewise finish the old builder's open block. -/
def finishBlocksPhase (b : Builder) : Builder :=
  let b1 :=
    if b.block_builder.block.size > 0 then
      { b with
        biggest := b.biggest ++ b.block_builder.block.tmp_keys.get_last
        block_builder := b.block_builder.finish_block b.fid b.checksum_tp }
    else b
  if b1.old_builder.block.size > 0 then
    { b1 with old_builder := b1.old_builder.finish_block b1.fid b1.checksum_tp }
  else b1

/-- Function `finish`: close open blocks, assert at least one current block was
emitted (`none` models the failed assertion), then append the data
section, old-data section, both indexes, the properties section and the
footer to `data_buf`.  Section sizes are taken `as u32`. -/
def finish (b : Builder) (base_off : Nat) (data_buf : List Nat) :
    Option (BuildResult × List Nat) :=
  let b1 := b.finishBlocksPhase
  if b1.block_builder.block_keys.length > 0 then
    let data_section_size := b1.block_builder.buf.length % 2 ^ 32
    let old_data_section_size := b1.old_builder.buf.length % 2 ^ 32
    let bbIdx := b1.block_builder.build_index base_off b1.checksum_tp b1.key_hashes
    let index_section_size := bbIdx.buf.length % 2 ^ 32
    let obIdx := b1.old_builder.build_index ((base_off + data_section_size) % 2 ^ 32)
      b1.checksum_tp []
    let old_index_section_size := obIdx.buf.length % 2 ^ 32
    let footer : Footer :=
      { old_data_offset := data_section_size
        index_offset := (data_section_size + old_data_section_size) % 2 ^ 32
        old_index_offset :=
          ((data_section_size + old_data_section_size) % 2 ^ 32 +
            index_section_size) % 2 ^ 32
        properties_offset :=
          (((data_section_size + old_data_section_size) % 2 ^ 32 +
            index_section_size) % 2 ^ 32 + old_index_section_size) % 2 ^ 32
        compression_type := NO_COMPRESSION
        checksum_type := b1.checksum_tp
        table_format_version := TABLE_FORMAT
        magic := MAGIC_NUMBER }
    some ({ id := b1.fid, smallest := b1.smallest, biggest := b1.biggest },
      data_buf ++ b1.block_builder.buf ++ b1.old_builder.buf ++ bbIdx.buf ++
        obIdx.buf ++ b1.build_properties_bytes ++ footer.marshal)
  else
    none

/-- Folding `add` over a record sequence. -/
def addAll (b : Builder) (recs : List (List Nat × Value)) : Builder :=
  recs.foldl (fun acc r => acc.add r.1 r.2) b

end Builder

/-! Section: Structured view of the builder state

The byte model above serializes each block as soon as it is cut, which
hides the entries inside `buf`.  To state and prove stream-content
properties we re-express the same state machine over structured entries
(`VEntry`) and prove that the byte model refines it: the builder's `buf`
is always the concatenation of the serializations of the view's finished
blocks. -/

/-- One staged entry: its key, the encoded value bytes, the old-version
slot, and its `entry_sizes` cell. -/
structure VEntry where
  key : List Nat
  valBytes : List Nat
  old_ver : Nat
  esize : Nat
  deriving Repr, DecidableEq

namespace VEntry

/-- The entry as produced by `add_entry`. -/
def of (key : List Nat) (val : Value) : VEntry :=
  ⟨key, val.encode, 0, 2 + key.length + val.encoded_size⟩

/-- The size contribution `add_entry` pushed for this entry
(`2 + key_len + encoded value len`), before any `+8` adjustment. -/
def pushedSize (e : VEntry) : Nat := 2 + e.key.length + e.valBytes.length

/-- The meta byte `build_entry` emits: `META_HAS_OLD` forced on when the
old slot is non-zero, forced off (`& !META_HAS_OLD = & 253`) otherwise. -/
def emittedMeta (e : VEntry) : Nat :=
  if e.old_ver ≠ 0 then (Value.decode e.valBytes).meta ||| META_HAS_OLD
  else (Value.decode e.valBytes).meta &&& 253

/-- The bytes `build_entry` emits for this entry. -/
def bytes (e : VEntry) (cpl : Nat) : List Nat :=
  let key_suffix := e.key.drop cpl
  let v := Value.decode e.valBytes
  u16le key_suffix.length ++ key_suffix ++ [e.emittedMeta % 256] ++
    u64le v.version ++ (if e.old_ver ≠ 0 then u64le e.old_ver else []) ++
    [v.user_meta.length % 256] ++ v.user_meta ++ v.value

end VEntry

/-- Sum of the pushed sizes: the view of `BlockBuffer.size`. -/
def vSize (staged : List VEntry) : Nat :=
  (staged.map VEntry.pushedSize).sum

/-- Key of the last staged entry, if any. -/
def vLastKey (staged : List VEntry) : List Nat :=
  match staged.getLast? with
  | some e => e.key
  | none => []

def vSameLast (staged : List VEntry) (key : List Nat) : Bool :=
  match staged.getLast? with
  | some e => e.key == key
  | none => false

/-- Update the last entry: fill the old slot and bump its size cell. -/
def bumpLast (ver : Nat) : List VEntry → List VEntry
  | [] => []
  | [e] => [{ e with old_ver := ver, esize := e.esize + 8 }]
  | e :: e' :: rest => e :: bumpLast ver (e' :: rest)

/-- Old slot of the last staged entry (0 when empty). -/
def vLastOldVer (staged : List VEntry) : Nat :=
  match staged.getLast? with
  | some e => e.old_ver
  | none => 0

/-- View of `set_last_entry_old_ver_if_zero`. -/
def vSetLastIfZero (staged : List VEntry) (ver : Nat) : List VEntry :=
  if vLastOldVer staged = 0 then bumpLast ver staged else staged

/-- View of `blockBody`: the block body over structured entries. -/
def vBlockBody (staged : List VEntry) : List Nat :=
  let keys := staged.map VEntry.key
  let cpl := key_diff_idx (keys.getD 0 []) (keys.getD (keys.length - 1) [])
  u32le staged.length ++
    BlockBuilder.entryOffsetAcc cpl 0 (staged.map VEntry.esize) ++
    u16le cpl ++ (keys.getD 0 []).take cpl ++
    staged.flatMap (fun e => e.bytes cpl)

/-- View of one finished block's bytes: checksum then body. -/
def serializeBlock (checksum_tp : Nat) (staged : List VEntry) : List Nat :=
  let body := vBlockBody staged
  u32le (if checksum_tp = CRC32_CASTAGNOLI then crc32c body else 0) ++ body

/-- A `BlockBuffer` represents a list of staged entries. -/
def BlockRep (blk : BlockBuffer) (staged : List VEntry) : Prop :=
  blk.tmp_keys.Rep (staged.map VEntry.key) ∧
  blk.tmp_vals.Rep (staged.map VEntry.valBytes) ∧
  blk.old_vers = staged.map VEntry.old_ver ∧
  blk.entry_sizes = staged.map VEntry.esize ∧
  blk.size = vSize staged

/-- Default entry used only as the `getD` fallback in proofs. -/
def dVEntry : VEntry := ⟨[], [], 0, 0⟩

/-! Section: The view state machine -/

structure BView where
  done : List (List VEntry)
  staged : List VEntry
  deriving Repr, DecidableEq

structure View where
  cur : BView
  old : BView
  hashes : List Nat
  smallest : List Nat
  biggest : List Nat
  deriving Repr, DecidableEq

def vInit : View := ⟨⟨[], []⟩, ⟨[], []⟩, [], [], []⟩

/-- The view of `Builder.add`. -/
def vAdd (bs : Nat) (v : View) (key : List Nat) (val : Value) : View :=
  if vSameLast v.cur.staged key then
    { v with
      cur := { v.cur with staged := vSetLastIfZero v.cur.staged val.version },
      old := { v.old with staged := v.old.staged ++ [VEntry.of key val] } }
  else
    let c := if vSize v.cur.staged > bs then
        (⟨v.cur.done ++ [v.cur.staged], []⟩ : BView) else v.cur
    let o := if vSize v.old.staged > bs then
        (⟨v.old.done ++ [v.old.staged], []⟩ : BView) else v.old
    { cur := { c with staged := c.staged ++ [VEntry.of key val] },
      old := o,
      hashes := v.hashes ++ [farmhashFingerprint64 key],
      smallest := if v.smallest.length = 0 then v.smallest ++ key else v.smallest,
      biggest := v.biggest }

def vAddAll (bs : Nat) (v : View) (recs : List (List Nat × Value)) : View :=
  recs.foldl (fun acc r => vAdd bs acc r.1 r.2) v

/-- The view of closing the current block in `finish`. -/
def vFlushCur (v : View) : View :=
  if v.cur.staged ≠ [] then
    { v with
      biggest := v.biggest ++ vLastKey v.cur.staged,
      cur := ⟨v.cur.done ++ [v.cur.staged], []⟩ }
  else v

def vFlushOld (v : View) : View :=
  if v.old.staged ≠ [] then
    { v with old := ⟨v.old.done ++ [v.old.staged], []⟩ }
  else v

def vPhase1 (v : View) : View := vFlushOld (vFlushCur v)

/-- All entries ever routed to the current stream, in order. -/
def allCur (v : View) : List VEntry := v.cur.done.flatten ++ v.cur.staged

/-- All entries ever routed to the old-versions stream, in order. -/
def allOld (v : View) : List VEntry := v.old.done.flatten ++ v.old.staged

/-- The byte model refines the view: both staging blocks are represented
and both output buffers are the concatenated serializations of the
finished view blocks. -/
def VRel (b : Builder) (v : View) : Prop :=
  BlockRep b.block_builder.block v.cur.staged ∧
  b.block_builder.buf = (v.cur.done.map (serializeBlock b.checksum_tp)).flatten ∧
  BlockRep b.old_builder.block v.old.staged ∧
  b.old_builder.buf = (v.old.done.map (serializeBlock b.checksum_tp)).flatten ∧
  b.key_hashes = v.hashes ∧ b.smallest = v.smallest ∧ b.biggest = v.biggest

/-! Section: Counting entries per key in the streams -/

/-- Number of entries with key `k`. -/
def countKey (k : List Nat) (es : List VEntry) : Nat :=
  (es.map VEntry.key).count k

/-- The old-version slot update rule of `set_last_entry_old_ver_if_zero`:
keep a non-zero slot, otherwise take the incoming version. -/
def promoteIfZero (s x : Nat) : Nat := if s = 0 then x else s

/-! Section: `BlockBuffer` op sequences (C4) -/

/-- The two mutating operations reachable on a staging block. -/
inductive BlockOp where
  | addE (key : List Nat) (val : Value)
  | setOld (ver : Nat)
  deriving Repr

def applyOp (bb : BlockBuilder) : BlockOp → BlockBuilder
  | .addE k v => bb.add_entry k v
  | .setOld ver => bb.set_last_entry_old_ver_if_zero ver

def applyOps (bb : BlockBuilder) (ops : List BlockOp) : BlockBuilder :=
  ops.foldl applyOp bb

/-- The size `add_entry` pushes for each op (0 for promotions). -/
def pushedSum (ops : List BlockOp) : Nat :=
  (ops.map (fun op => match op with
    | .addE k v => 2 + k.length + v.encoded_size
    | .setOld _ => 0)).sum

/-! Section: Entry offsets of a finished block (C5) -/

/-- Byte-wise lexicographic order on keys. -/
def keyLeB : List Nat → List Nat → Bool
  | [], _ => true
  | _ :: _, [] => false
  | a :: as, b :: bs =>
    if a < b then true else if a = b then keyLeB as bs else false

/-- The numeric offsets stored by the first pass of `finish_block`:
`offset[0] = off`, each next adds `entry_sizes[i] - cpl`. -/
def offsetsList (cpl : Nat) : Nat → List Nat → List Nat
  | _, [] => []
  | off, s :: ss => off :: offsetsList cpl (off + (s - cpl)) ss

instance entrySliceRepDecidable (es : EntrySlice) (cs : List (List Nat)) :
    Decidable (es.Rep cs) := by
  rw [EntrySlice.Rep]
  infer_instance

instance blockRepDecidable (blk : BlockBuffer) (staged : List VEntry) :
    Decidable (BlockRep blk staged) := by
  rw [BlockRep]
  infer_instance

/-- Concrete two-entry staged block used to witness the offsets theorem. -/
def wStaged5 : List VEntry :=
  [⟨[97], (⟨0, 5, [], []⟩ : Value).encode, 0, 13⟩,
    ⟨[98], (⟨0, 7, [], []⟩ : Value).encode, 0, 13⟩]

/-- The builder staging `wStaged5`. -/
def wBuilder5 : Builder :=
  (Builder.new 1 TableBuilderOptions.default).addAll
    [([97], ⟨0, 5, [], []⟩), ([98], ⟨0, 7, [], []⟩)]

/-! Section: Theorems -/

theorem u16le_length (x : Nat) : (u16le x).length = 2 := rfl

theorem u32le_length (x : Nat) : (u32le x).length = 4 := rfl

theorem u64le_length (x : Nat) : (u64le x).length = 8 := rfl

namespace Value

theorem encode_length (v : Value) : v.encode.length = v.encoded_size := by
  simp [encode, encoded_size, u64le]
  omega

theorem leVal_u64le (x : Nat) : leVal (u64le x) = x % 2 ^ 64 := by
  simp [u64le, leVal]
  omega

theorem decode_encode (v : Value) (h : v.WF) : decode v.encode = v := by
  obtain ⟨m, ver, um, val⟩ := v
  obtain ⟨hm, hv, hu⟩ := h
  simp only at hm hv hu
  simp only [decode, encode, u64le, List.cons_append, List.nil_append]
  simp [leVal, Nat.mod_eq_of_lt hm, Nat.mod_eq_of_lt hu, Value.mk.injEq]
  constructor
  · omega
  · rw [← List.drop_drop um.length 10]
    show List.drop um.length (um ++ val) = val
    simp

end Value

namespace EntrySlice

theorem rep_new : Rep new [] := ⟨rfl, rfl⟩

theorem endOffsFrom_append (acc : Nat) (cs ds : List (List Nat)) :
    endOffsFrom acc (cs ++ ds) =
      endOffsFrom acc cs ++ endOffsFrom (acc + cs.flatten.length) ds := by
  induction cs generalizing acc with
  | nil => simp [endOffsFrom]
  | cons c cs ih =>
    simp [endOffsFrom, ih, Nat.add_assoc]

theorem rep_append {es : EntrySlice} {cs : List (List Nat)} (h : Rep es cs)
    (d : List Nat) : Rep (es.append d) (cs ++ [d]) := by
  obtain ⟨hb, ho⟩ := h
  constructor
  · simp [append, hb]
  · simp [append, hb, ho, endOffsFrom_append, endOffsFrom]

theorem rep_length {es : EntrySlice} {cs : List (List Nat)} (h : Rep es cs) :
    es.length = cs.length := by
  have hlen : ∀ (acc : Nat) (l : List (List Nat)),
      (endOffsFrom acc l).length = l.length := by
    intro acc l
    induction l generalizing acc with
    | nil => rfl
    | cons c cs ih => simp [endOffsFrom, ih]
  simp [length, h.2, hlen]

theorem endOffsFrom_getD (acc : Nat) (cs : List (List Nat)) (i : Nat)
    (h : i < cs.length) :
    (endOffsFrom acc cs).getD i 0 = acc + sumLen (cs.take (i + 1)) := by
  induction cs generalizing acc i with
  | nil => simp at h
  | cons c cs ih =>
    cases i with
    | zero => simp [endOffsFrom, sumLen]
    | succ j =>
      simp only [endOffsFrom, List.getD_cons_succ, List.take_succ_cons]
      rw [ih _ _ (by simpa using h)]
      simp [sumLen]
      omega

theorem flatten_slice (cs : List (List Nat)) (i : Nat) (h : i < cs.length) :
    bytesSlice cs.flatten (sumLen (cs.take i)) (sumLen (cs.take (i + 1))) =
      cs.getD i [] := by
  induction cs generalizing i with
  | nil => simp at h
  | cons c cs ih =>
    cases i with
    | zero =>
      simp [bytesSlice, sumLen, List.take_append]
    | succ j =>
      have hj : j < cs.length := by simpa using h
      simp only [List.take_succ_cons, List.getD_cons_succ]
      have : bytesSlice (c :: cs).flatten (sumLen (c :: cs.take j))
          (sumLen (c :: cs.take (j + 1))) =
          bytesSlice cs.flatten (sumLen (cs.take j)) (sumLen (cs.take (j + 1))) := by
        simp only [List.flatten_cons, sumLen, List.map_cons, List.sum_cons,
          bytesSlice]
        rw [List.take_append, List.drop_append]
      rw [this, ih _ hj]

theorem rep_get_entry {es : EntrySlice} {cs : List (List Nat)} (h : Rep es cs)
    {i : Nat} (hi : i < cs.length) : es.get_entry i = cs.getD i [] := by
  obtain ⟨hb, ho⟩ := h
  cases i with
  | zero =>
    rw [get_entry, hb, ho, if_neg (by omega), endOffsFrom_getD 0 cs 0 hi]
    simpa [sumLen] using flatten_slice cs 0 hi
  | succ j =>
    have hj : j < cs.length := Nat.lt_of_succ_lt hi
    rw [get_entry, hb, ho, if_pos (Nat.succ_pos j), Nat.add_sub_cancel,
      endOffsFrom_getD 0 cs j hj, endOffsFrom_getD 0 cs (j + 1) hi]
    simpa using flatten_slice cs (j + 1) hi

theorem rep_get_last {es : EntrySlice} {cs : List (List Nat)} (h : Rep es cs)
    (hne : cs ≠ []) : es.get_last = cs.getD (cs.length - 1) [] := by
  have hlt : cs.length - 1 < cs.length := by
    cases cs with
    | nil => exact absurd rfl hne
    | cons c cs => simp
  rw [get_last, rep_length h]
  exact rep_get_entry h hlt

end EntrySlice

theorem blockRep_empty : BlockRep BlockBuffer.empty [] :=
  ⟨EntrySlice.rep_new, EntrySlice.rep_new, rfl, rfl, rfl⟩

/-! Section: List helper lemmas -/

theorem getD_map_of_lt {α β : Type} (f : α → β) (l : List α) (i : Nat)
    (d : α) (db : β) (h : i < l.length) :
    (l.map f).getD i db = f (l.getD i d) := by
  have h' : i < (l.map f).length := by simpa using h
  rw [List.getD_eq_getElem _ _ h', List.getD_eq_getElem _ _ h]
  simp

theorem range_map_getD {α : Type} (l : List α) (d : α) :
    (List.range l.length).map (fun i => l.getD i d) = l := by
  induction l with
  | nil => rfl
  | cons x xs ih =>
    rw [List.length_cons, List.range_succ_eq_map, List.map_cons, List.map_map]
    have hfun : ((fun i => (x :: xs).getD i d) ∘ Nat.succ) = fun i => xs.getD i d := by
      funext i
      simp
    rw [List.getD_cons_zero, hfun, ih]

theorem range_flatMap_getD {α : Type} (l : List α) (d : α)
    (g : α → List Nat) :
    (List.range l.length).flatMap (fun i => g (l.getD i d)) = l.flatMap g := by
  have h1 : (List.range l.length).flatMap (fun i => g (l.getD i d)) =
      ((List.range l.length).map (fun i => l.getD i d)).flatMap g := by
    rw [List.flatMap_map]
  rw [h1, range_map_getD]

theorem getLast?_eq_getD {α : Type} (l : List α) (d : α) (h : l ≠ []) :
    l.getLast? = some (l.getD (l.length - 1) d) := by
  induction l with
  | nil => exact absurd rfl h
  | cons x xs ih =>
    cases xs with
    | nil => rfl
    | cons y ys =>
      rw [List.getLast?_cons_cons, ih (by simp)]
      simp

/-! Section: `bumpLast` commutation lemmas -/

theorem bumpLast_map_key (ver : Nat) (l : List VEntry) :
    (bumpLast ver l).map VEntry.key = l.map VEntry.key := by
  induction l with
  | nil => rfl
  | cons e rest ih =>
    cases rest with
    | nil => rfl
    | cons e' rest' => simpa [bumpLast] using ih

theorem bumpLast_map_valBytes (ver : Nat) (l : List VEntry) :
    (bumpLast ver l).map VEntry.valBytes = l.map VEntry.valBytes := by
  induction l with
  | nil => rfl
  | cons e rest ih =>
    cases rest with
    | nil => rfl
    | cons e' rest' => simpa [bumpLast] using ih

theorem bumpLast_map_pushedSize (ver : Nat) (l : List VEntry) :
    (bumpLast ver l).map VEntry.pushedSize = l.map VEntry.pushedSize := by
  induction l with
  | nil => rfl
  | cons e rest ih =>
    cases rest with
    | nil => rfl
    | cons e' rest' => simpa [bumpLast] using ih

theorem vSize_bumpLast (ver : Nat) (l : List VEntry) :
    vSize (bumpLast ver l) = vSize l := by
  rw [vSize, vSize, bumpLast_map_pushedSize]

theorem bumpLast_map_old_ver (ver : Nat) (l : List VEntry) :
    (bumpLast ver l).map VEntry.old_ver =
      (l.map VEntry.old_ver).set (l.length - 1) ver := by
  induction l with
  | nil => rfl
  | cons e rest ih =>
    cases rest with
    | nil => rfl
    | cons e' rest' =>
      simp only [bumpLast, List.map_cons, ih, List.length_cons]
      rfl

theorem bumpLast_map_esize (ver : Nat) (l : List VEntry) :
    (bumpLast ver l).map VEntry.esize =
      (l.map VEntry.esize).set (l.length - 1)
        ((l.map VEntry.esize).getD (l.length - 1) 0 + 8) := by
  induction l with
  | nil => rfl
  | cons e rest ih =>
    cases rest with
    | nil => rfl
    | cons e' rest' =>
      simp only [bumpLast, List.map_cons, ih, List.length_cons]
      rfl

theorem bumpLast_length (ver : Nat) (l : List VEntry) :
    (bumpLast ver l).length = l.length := by
  induction l with
  | nil => rfl
  | cons e rest ih =>
    cases rest with
    | nil => rfl
    | cons e' rest' => simpa [bumpLast] using ih

/-! Section: `BlockRep` preservation -/

theorem blockRep_add_entry {bb : BlockBuilder} {staged : List VEntry}
    (h : BlockRep bb.block staged) (key : List Nat) (val : Value) :
    BlockRep (bb.add_entry key val).block (staged ++ [VEntry.of key val]) := by
  obtain ⟨hk, hv, ho, he, hs⟩ := h
  refine ⟨?_, ?_, ?_, ?_, ?_⟩
  · simpa [BlockBuilder.add_entry, VEntry.of] using EntrySlice.rep_append hk key
  · simpa [BlockBuilder.add_entry, VEntry.of, EntrySlice.append_value]
      using EntrySlice.rep_append hv val.encode
  · simp [BlockBuilder.add_entry, ho, VEntry.of]
  · simp [BlockBuilder.add_entry, he, VEntry.of]
  · simp [BlockBuilder.add_entry, hs, VEntry.of, vSize, VEntry.pushedSize,
      Value.encode_length]

theorem same_last_key_eq {bb : BlockBuilder} {staged : List VEntry}
    (h : BlockRep bb.block staged) (key : List Nat) :
    bb.same_last_key key = vSameLast staged key := by
  obtain ⟨hk, _, _, _, _⟩ := h
  rw [BlockBuilder.same_last_key]
  by_cases hne : staged = []
  · have : bb.block.tmp_keys.length = 0 := by
      rw [EntrySlice.rep_length hk, hne]; rfl
    simp [this, vSameLast, hne]
  · have hlen : bb.block.tmp_keys.length = staged.length :=
      (EntrySlice.rep_length hk).trans (by simp)
    have hpos : bb.block.tmp_keys.length > 0 := by
      rw [hlen]
      exact List.length_pos.mpr hne
    have hmapne : staged.map VEntry.key ≠ [] := by
      simpa using hne
    have hlast : bb.block.tmp_keys.get_last =
        (staged.map VEntry.key).getD ((staged.map VEntry.key).length - 1) [] :=
      EntrySlice.rep_get_last hk hmapne
    have hlt : staged.length - 1 < staged.length :=
      Nat.sub_lt (List.length_pos.mpr hne) Nat.one_pos
    have hgd : (staged.map VEntry.key).getD ((staged.map VEntry.key).length - 1) [] =
        (staged.getD (staged.length - 1) (VEntry.of [] ⟨0, 0, [], []⟩)).key := by
      rw [List.length_map]
      exact getD_map_of_lt _ _ _ _ _ hlt
    have hlast? : staged.getLast? =
        some (staged.getD (staged.length - 1) (VEntry.of [] ⟨0, 0, [], []⟩)) :=
      getLast?_eq_getD staged _ hne
    rw [if_pos hpos, hlast, hgd, vSameLast, hlast?]

theorem blockRep_set_last {bb : BlockBuilder} {staged : List VEntry}
    (h : BlockRep bb.block staged) (ver : Nat) :
    BlockRep (bb.set_last_entry_old_ver_if_zero ver).block
      (vSetLastIfZero staged ver) := by
  obtain ⟨hk, hv, ho, he, hs⟩ := h
  have hcond : (bb.block.old_vers.getD (bb.block.old_vers.length - 1) 0 = 0) ↔
      (vLastOldVer staged = 0) := by
    by_cases hne : staged = []
    · rw [ho, hne]
      simp [vLastOldVer]
    · have hlt : staged.length - 1 < staged.length :=
        Nat.sub_lt (List.length_pos.mpr hne) Nat.one_pos
      have hlast? : staged.getLast? =
          some (staged.getD (staged.length - 1) (VEntry.of [] ⟨0, 0, [], []⟩)) :=
        getLast?_eq_getD staged _ hne
      rw [ho, List.length_map,
        getD_map_of_lt VEntry.old_ver staged _ (VEntry.of [] ⟨0, 0, [], []⟩) 0 hlt,
        vLastOldVer, hlast?]
  rw [BlockBuilder.set_last_entry_old_ver_if_zero, vSetLastIfZero]
  by_cases hz : vLastOldVer staged = 0
  · rw [if_pos (hcond.mpr hz), if_pos hz]
    refine ⟨?_, ?_, ?_, ?_, ?_⟩
    · simpa [bumpLast_map_key] using hk
    · simpa [bumpLast_map_valBytes] using hv
    · simp [ho, bumpLast_map_old_ver]
    · simp [he, bumpLast_map_esize]
    · simp [hs, vSize_bumpLast]
  · rw [if_neg (fun hc => hz (hcond.mp hc)), if_neg hz]
    exact ⟨hk, hv, ho, he, hs⟩

theorem flatMap_range_congr (n : Nat) (f g : Nat → List Nat)
    (h : ∀ i < n, f i = g i) :
    (List.range n).flatMap f = (List.range n).flatMap g := by
  rw [List.flatMap, List.flatMap]
  have : (List.range n).map f = (List.range n).map g :=
    List.map_congr_left (fun i hi => h i (List.mem_range.mp hi))
  rw [this]

theorem vSize_pos_iff (staged : List VEntry) : 0 < vSize staged ↔ staged ≠ [] := by
  cases staged with
  | nil => simp [vSize]
  | cons e rest =>
    simp only [vSize, List.map_cons, List.sum_cons, VEntry.pushedSize]
    constructor
    · intro _
      exact List.cons_ne_nil e rest
    · intro _
      omega

theorem build_entry_bytes_eq {block : BlockBuffer} {staged : List VEntry}
    (hk : block.tmp_keys.Rep (staged.map VEntry.key))
    (hv : block.tmp_vals.Rep (staged.map VEntry.valBytes))
    (ho : block.old_vers = staged.map VEntry.old_ver)
    {i : Nat} (hi : i < staged.length) (cpl : Nat) :
    BlockBuilder.build_entry_bytes block i cpl = (staged.getD i dVEntry).bytes cpl := by
  have hkey : block.tmp_keys.get_entry i = (staged.getD i dVEntry).key := by
    rw [EntrySlice.rep_get_entry hk (by simpa using hi)]
    exact getD_map_of_lt _ _ _ _ _ hi
  have hval : block.tmp_vals.get_entry i = (staged.getD i dVEntry).valBytes := by
    rw [EntrySlice.rep_get_entry hv (by simpa using hi)]
    exact getD_map_of_lt _ _ _ _ _ hi
  have hold : block.old_vers.getD i 0 = (staged.getD i dVEntry).old_ver := by
    rw [ho]
    exact getD_map_of_lt _ _ _ _ _ hi
  rw [BlockBuilder.build_entry_bytes, VEntry.bytes, VEntry.emittedMeta,
    hkey, hval, hold]

theorem blockBody_eq {block : BlockBuffer} {staged : List VEntry}
    (h : BlockRep block staged) (hne : staged ≠ []) :
    BlockBuilder.blockBody block = vBlockBody staged := by
  obtain ⟨hk, hv, ho, he, _⟩ := h
  have hpos : 0 < staged.length := List.length_pos.mpr hne
  have hlen : block.tmp_keys.length = staged.length :=
    (EntrySlice.rep_length hk).trans (by simp)
  have hfirst : block.tmp_keys.get_entry 0 = (staged.map VEntry.key).getD 0 [] :=
    EntrySlice.rep_get_entry hk (by simpa using hpos)
  have hlast : block.tmp_keys.get_last =
      (staged.map VEntry.key).getD ((staged.map VEntry.key).length - 1) [] :=
    EntrySlice.rep_get_last hk (by simpa using hne)
  have hfm : (List.range staged.length).flatMap
      (fun i => BlockBuilder.build_entry_bytes block i
        (key_diff_idx ((staged.map VEntry.key).getD 0 [])
          ((staged.map VEntry.key).getD ((staged.map VEntry.key).length - 1) []))) =
      staged.flatMap (fun e => e.bytes
        (key_diff_idx ((staged.map VEntry.key).getD 0 [])
          ((staged.map VEntry.key).getD ((staged.map VEntry.key).length - 1) []))) := by
    rw [flatMap_range_congr _ _ _
      (fun i hi => build_entry_bytes_eq hk hv ho hi _)]
    exact range_flatMap_getD staged dVEntry
      (fun e => e.bytes
        (key_diff_idx ((staged.map VEntry.key).getD 0 [])
          ((staged.map VEntry.key).getD ((staged.map VEntry.key).length - 1) [])))
  rw [BlockBuilder.blockBody, vBlockBody]
  rw [hlen, hfirst, hlast, he, hfm]

theorem finish_block_eq {bb : BlockBuilder} {staged : List VEntry}
    (h : BlockRep bb.block staged) (hne : staged ≠ []) (fid tp : Nat) :
    bb.finish_block fid tp =
      { buf := bb.buf ++ serializeBlock tp staged,
        block := BlockBuffer.empty,
        block_keys := bb.block_keys.append ((staged.map VEntry.key).getD 0 []),
        block_addrs :=
          bb.block_addrs ++ [BlockAddress.new fid (bb.buf.length % 2 ^ 32)] } := by
  have hbody := blockBody_eq h hne
  have hpos : 0 < staged.length := List.length_pos.mpr hne
  have hfirst : bb.block.tmp_keys.get_entry 0 = (staged.map VEntry.key).getD 0 [] :=
    EntrySlice.rep_get_entry h.1 (by simpa using hpos)
  rw [BlockBuilder.finish_block, serializeBlock, hbody, hfirst]
  simp [BlockBuffer.reset, List.append_assoc]

theorem vrel_new (fid : Nat) (opt : TableBuilderOptions) :
    VRel (Builder.new fid opt) vInit :=
  ⟨blockRep_empty, rfl, blockRep_empty, rfl, rfl, rfl, rfl⟩

theorem set_last_buf (bb : BlockBuilder) (ver : Nat) :
    (bb.set_last_entry_old_ver_if_zero ver).buf = bb.buf := by
  rw [BlockBuilder.set_last_entry_old_ver_if_zero]
  dsimp only
  split <;> rfl

theorem add_block_size (b : Builder) (key : List Nat) (val : Value) :
    (b.add key val).block_size = b.block_size := by
  rw [Builder.add]
  split
  · rfl
  · dsimp only
    split <;> split <;> rfl

theorem vrel_maybe_cut_cur {b : Builder} {v : View} (h : VRel b v)
    (bs : Nat) (hbs : b.block_size = bs) :
    VRel
      (if b.block_builder.block.size > b.block_size then
        { b with block_builder := b.block_builder.finish_block b.fid b.checksum_tp }
      else b)
      { v with cur :=
          if vSize v.cur.staged > bs then
            ⟨v.cur.done ++ [v.cur.staged], []⟩
          else v.cur } := by
  obtain ⟨hcr, hcb, hor, hob, hh, hsm, hbg⟩ := h
  have hsz : b.block_builder.block.size = vSize v.cur.staged := hcr.2.2.2.2
  by_cases hc : vSize v.cur.staged > bs
  · rw [if_pos (by rw [hsz, hbs]; exact hc), if_pos hc]
    have hne : v.cur.staged ≠ [] :=
      (vSize_pos_iff _).mp (Nat.lt_of_le_of_lt (Nat.zero_le _) hc)
    refine ⟨?_, ?_, hor, hob, hh, hsm, hbg⟩
    · show BlockRep (b.block_builder.finish_block b.fid b.checksum_tp).block []
      rw [finish_block_eq hcr hne]
      exact blockRep_empty
    · show (b.block_builder.finish_block b.fid b.checksum_tp).buf = _
      rw [finish_block_eq hcr hne]
      dsimp only
      rw [hcb]
      simp
  · rw [if_neg (by rw [hsz, hbs]; exact hc), if_neg hc]
    exact ⟨hcr, hcb, hor, hob, hh, hsm, hbg⟩

theorem vrel_maybe_cut_old {b : Builder} {v : View} (h : VRel b v)
    (bs : Nat) (hbs : b.block_size = bs) :
    VRel
      (if b.old_builder.block.size > b.block_size then
        { b with old_builder := b.old_builder.finish_block b.fid b.checksum_tp }
      else b)
      { v with old :=
          if vSize v.old.staged > bs then
            ⟨v.old.done ++ [v.old.staged], []⟩
          else v.old } := by
  obtain ⟨hcr, hcb, hor, hob, hh, hsm, hbg⟩ := h
  have hsz : b.old_builder.block.size = vSize v.old.staged := hor.2.2.2.2
  by_cases hc : vSize v.old.staged > bs
  · rw [if_pos (by rw [hsz, hbs]; exact hc), if_pos hc]
    have hne : v.old.staged ≠ [] :=
      (vSize_pos_iff _).mp (Nat.lt_of_le_of_lt (Nat.zero_le _) hc)
    refine ⟨hcr, hcb, ?_, ?_, hh, hsm, hbg⟩
    · show BlockRep (b.old_builder.finish_block b.fid b.checksum_tp).block []
      rw [finish_block_eq hor hne]
      exact blockRep_empty
    · show (b.old_builder.finish_block b.fid b.checksum_tp).buf = _
      rw [finish_block_eq hor hne]
      dsimp only
      rw [hob]
      simp
  · rw [if_neg (by rw [hsz, hbs]; exact hc), if_neg hc]
    exact ⟨hcr, hcb, hor, hob, hh, hsm, hbg⟩

theorem vrel_new_entry {b : Builder} {v : View} (h : VRel b v)
    (key : List Nat) (val : Value) :
    VRel
      { b with
        block_builder := b.block_builder.add_entry key val,
        key_hashes := b.key_hashes ++ [farmhashFingerprint64 key],
        smallest := if b.smallest.length = 0 then b.smallest ++ key else b.smallest }
      { cur := { v.cur with staged := v.cur.staged ++ [VEntry.of key val] },
        old := v.old,
        hashes := v.hashes ++ [farmhashFingerprint64 key],
        smallest := if v.smallest.length = 0 then v.smallest ++ key else v.smallest,
        biggest := v.biggest } := by
  obtain ⟨hcr, hcb, hor, hob, hh, hsm, hbg⟩ := h
  exact ⟨blockRep_add_entry hcr key val, hcb, hor, hob, by rw [hh], by rw [hsm], hbg⟩

theorem vrel_add {b : Builder} {v : View} (h : VRel b v) (key : List Nat)
    (val : Value) : VRel (b.add key val) (vAdd b.block_size v key val) := by
  have hsame := same_last_key_eq h.1 key
  rw [Builder.add, vAdd, hsame]
  by_cases hdup : vSameLast v.cur.staged key
  · rw [if_pos hdup, if_pos hdup]
    obtain ⟨hcr, hcb, hor, hob, hh, hsm, hbg⟩ := h
    refine ⟨?_, ?_, ?_, hob, hh, hsm, hbg⟩
    · exact blockRep_set_last hcr val.version
    · show (b.block_builder.set_last_entry_old_ver_if_zero val.version).buf = _
      rw [set_last_buf]
      exact hcb
    · exact blockRep_add_entry hor key val
  · rw [if_neg hdup, if_neg hdup]
    dsimp only
    have h1 := vrel_maybe_cut_cur h b.block_size rfl
    have hbs1 : (if b.block_builder.block.size > b.block_size then
        { b with block_builder := b.block_builder.finish_block b.fid b.checksum_tp }
      else b).block_size = b.block_size := by
      split <;> rfl
    have h2 := vrel_maybe_cut_old h1 b.block_size hbs1
    dsimp only at h2
    exact vrel_new_entry h2 key val

theorem vrel_addAll {b : Builder} {v : View} (h : VRel b v)
    (recs : List (List Nat × Value)) :
    VRel (b.addAll recs) (vAddAll b.block_size v recs) := by
  induction recs generalizing b v with
  | nil => exact h
  | cons r rest ih =>
    have hstep := vrel_add h r.1 r.2
    have hbs : (b.add r.1 r.2).block_size = b.block_size := add_block_size b r.1 r.2
    have := ih hstep
    rw [hbs] at this
    exact this

theorem vrel_flush_cur {b : Builder} {v : View} (h : VRel b v) :
    VRel
      (if b.block_builder.block.size > 0 then
        { b with
          biggest := b.biggest ++ b.block_builder.block.tmp_keys.get_last,
          block_builder := b.block_builder.finish_block b.fid b.checksum_tp }
      else b)
      (vFlushCur v) := by
  obtain ⟨hcr, hcb, hor, hob, hh, hsm, hbg⟩ := h
  have hsz : b.block_builder.block.size = vSize v.cur.staged := hcr.2.2.2.2
  rw [vFlushCur]
  by_cases hne : v.cur.staged = []
  · have h0 : ¬ b.block_builder.block.size > 0 := by
      rw [hsz, hne]
      simp [vSize]
    rw [if_neg h0, if_neg (by simpa using hne)]
    exact ⟨hcr, hcb, hor, hob, hh, hsm, hbg⟩
  · have h0 : b.block_builder.block.size > 0 := by
      rw [hsz]
      exact (vSize_pos_iff _).mpr hne
    rw [if_pos h0, if_pos (by simpa using hne)]
    have hlt : v.cur.staged.length - 1 < v.cur.staged.length :=
      Nat.sub_lt (List.length_pos.mpr hne) Nat.one_pos
    have hlastkey : b.block_builder.block.tmp_keys.get_last =
        vLastKey v.cur.staged := by
      rw [EntrySlice.rep_get_last hcr.1 (by simpa using hne), List.length_map,
        getD_map_of_lt VEntry.key _ _ dVEntry [] hlt, vLastKey,
        getLast?_eq_getD v.cur.staged dVEntry hne]
    refine ⟨?_, ?_, hor, hob, hh, hsm, ?_⟩
    · show BlockRep (b.block_builder.finish_block b.fid b.checksum_tp).block []
      rw [finish_block_eq hcr hne]
      exact blockRep_empty
    · show (b.block_builder.finish_block b.fid b.checksum_tp).buf = _
      rw [finish_block_eq hcr hne]
      dsimp only
      rw [hcb]
      simp
    · show b.biggest ++ b.block_builder.block.tmp_keys.get_last = _
      rw [hlastkey, hbg]

theorem vrel_flush_old {b : Builder} {v : View} (h : VRel b v) :
    VRel
      (if b.old_builder.block.size > 0 then
        { b with old_builder := b.old_builder.finish_block b.fid b.checksum_tp }
      else b)
      (vFlushOld v) := by
  obtain ⟨hcr, hcb, hor, hob, hh, hsm, hbg⟩ := h
  have hsz : b.old_builder.block.size = vSize v.old.staged := hor.2.2.2.2
  rw [vFlushOld]
  by_cases hne : v.old.staged = []
  · have h0 : ¬ b.old_builder.block.size > 0 := by
      rw [hsz, hne]
      simp [vSize]
    rw [if_neg h0, if_neg (by simpa using hne)]
    exact ⟨hcr, hcb, hor, hob, hh, hsm, hbg⟩
  · have h0 : b.old_builder.block.size > 0 := by
      rw [hsz]
      exact (vSize_pos_iff _).mpr hne
    rw [if_pos h0, if_pos (by simpa using hne)]
    refine ⟨hcr, hcb, ?_, ?_, hh, hsm, hbg⟩
    · show BlockRep (b.old_builder.finish_block b.fid b.checksum_tp).block []
      rw [finish_block_eq hor hne]
      exact blockRep_empty
    · show (b.old_builder.finish_block b.fid b.checksum_tp).buf = _
      rw [finish_block_eq hor hne]
      dsimp only
      rw [hob]
      simp

theorem vrel_phase1 {b : Builder} {v : View} (h : VRel b v) :
    VRel b.finishBlocksPhase (vPhase1 v) := by
  rw [Builder.finishBlocksPhase, vPhase1]
  exact vrel_flush_old (vrel_flush_cur h)

theorem getLast?_append_right {α : Type} (A B : List α) (h : B ≠ []) :
    (A ++ B).getLast? = B.getLast? := by
  induction A with
  | nil => rfl
  | cons a A ih =>
    cases hAB : A ++ B with
    | nil =>
      exact absurd (List.append_eq_nil.mp hAB).2 h
    | cons x xs =>
      rw [List.cons_append, hAB, List.getLast?_cons_cons, ← hAB, ih]

theorem bumpLast_append (ver : Nat) (A B : List VEntry) (h : B ≠ []) :
    bumpLast ver (A ++ B) = A ++ bumpLast ver B := by
  induction A with
  | nil => rfl
  | cons a A ih =>
    cases hAB : A ++ B with
    | nil => exact absurd (List.append_eq_nil.mp hAB).2 h
    | cons x xs =>
      rw [List.cons_append, hAB, bumpLast, ← hAB, ih, List.cons_append]

theorem vLastOldVer_append (A B : List VEntry) (h : B ≠ []) :
    vLastOldVer (A ++ B) = vLastOldVer B := by
  rw [vLastOldVer, vLastOldVer, getLast?_append_right A B h]

theorem vSetLastIfZero_append (A B : List VEntry) (ver : Nat) (h : B ≠ []) :
    vSetLastIfZero (A ++ B) ver = A ++ vSetLastIfZero B ver := by
  rw [vSetLastIfZero, vSetLastIfZero, vLastOldVer_append A B h]
  split
  · exact bumpLast_append ver A B h
  · rfl

theorem vSetLastIfZero_map_key (l : List VEntry) (ver : Nat) :
    (vSetLastIfZero l ver).map VEntry.key = l.map VEntry.key := by
  rw [vSetLastIfZero]
  split
  · exact bumpLast_map_key ver l
  · rfl

theorem vSetLastIfZero_ne_nil (l : List VEntry) (ver : Nat) (h : l ≠ []) :
    vSetLastIfZero l ver ≠ [] := by
  intro hc
  have := vSetLastIfZero_map_key l ver
  rw [hc] at this
  exact h (List.map_eq_nil_iff.mp this.symm)

theorem countKey_append (k : List Nat) (A B : List VEntry) :
    countKey k (A ++ B) = countKey k A + countKey k B := by
  simp [countKey, List.count_append]

theorem countKey_vSetLastIfZero (k : List Nat) (l : List VEntry) (ver : Nat) :
    countKey k (vSetLastIfZero l ver) = countKey k l := by
  rw [countKey, countKey, vSetLastIfZero_map_key]

theorem countKey_singleton (k : List Nat) (e : VEntry) :
    countKey k [e] = if e.key = k then 1 else 0 := by
  by_cases h : e.key = k
  · rw [if_pos h, countKey]
    simp [h]
  · rw [if_neg h, countKey, List.map_cons, List.map_nil, List.count_eq_zero]
    simp only [List.mem_singleton]
    exact fun hc => h hc.symm

theorem countKey_eq_zero_iff (k : List Nat) (es : List VEntry) :
    countKey k es = 0 ↔ ∀ e ∈ es, e.key ≠ k := by
  rw [countKey, List.count_eq_zero]
  constructor
  · intro h e he hk
    exact h (hk ▸ List.mem_map_of_mem VEntry.key he)
  · intro h hk
    obtain ⟨e, he, hke⟩ := List.mem_map.mp hk
    exact h e he hke

/-! Section: Evolution of the stream totals under `vAdd` -/

theorem vSameLast_ne_nil {staged : List VEntry} {key : List Nat}
    (h : vSameLast staged key = true) : staged ≠ [] := by
  intro hc
  rw [hc, vSameLast] at h
  simp at h

theorem allCur_vAdd_dup {bs : Nat} {v : View} {key : List Nat} {val : Value}
    (h : vSameLast v.cur.staged key = true) :
    allCur (vAdd bs v key val) = vSetLastIfZero (allCur v) val.version ∧
    allOld (vAdd bs v key val) = allOld v ++ [VEntry.of key val] := by
  rw [vAdd, if_pos h]
  constructor
  · show v.cur.done.flatten ++ vSetLastIfZero v.cur.staged val.version = _
    rw [allCur, vSetLastIfZero_append _ _ _ (vSameLast_ne_nil h)]
  · show v.old.done.flatten ++ (v.old.staged ++ [VEntry.of key val]) = _
    rw [allOld, List.append_assoc]

theorem allCur_vAdd_new {bs : Nat} {v : View} {key : List Nat} {val : Value}
    (h : vSameLast v.cur.staged key = false) :
    allCur (vAdd bs v key val) = allCur v ++ [VEntry.of key val] ∧
    allOld (vAdd bs v key val) = allOld v := by
  rw [vAdd, if_neg (by simp [h])]
  dsimp only
  constructor
  · rw [allCur, allCur]
    dsimp only
    split
    · simp
    · simp
  · rw [allOld, allOld]
    dsimp only
    split
    · simp
    · simp

theorem vAdd_staged_ne (bs : Nat) (v : View) (key : List Nat) (val : Value) :
    (vAdd bs v key val).cur.staged ≠ [] := by
  rw [vAdd]
  split
  · exact vSetLastIfZero_ne_nil _ _ (vSameLast_ne_nil (by assumption))
  · dsimp only
    split
    · simp
    · simp

theorem staged_getLast?_eq (v : View) (h : v.cur.staged ≠ []) :
    v.cur.staged.getLast? = (allCur v).getLast? :=
  (getLast?_append_right _ _ h).symm

theorem allCur_vPhase1 (v : View) :
    allCur (vPhase1 v) = allCur v ∧ allOld (vPhase1 v) = allOld v ∧
      (vPhase1 v).cur.staged = [] ∧ (vPhase1 v).old.staged = [] := by
  rw [vPhase1, vFlushCur, vFlushOld]
  by_cases h1 : v.cur.staged ≠ []
  · rw [if_pos h1]
    dsimp only
    by_cases h2 : v.old.staged ≠ []
    · rw [if_pos h2]
      refine ⟨?_, ?_, rfl, rfl⟩
      · simp [allCur]
      · simp [allOld]
    · rw [if_neg h2]
      push_neg at h2
      refine ⟨?_, rfl, rfl, h2⟩
      simp [allCur]
  · rw [if_neg h1]
    push_neg at h1
    by_cases h2 : v.old.staged ≠ []
    · rw [if_pos h2]
      refine ⟨rfl, ?_, h1, rfl⟩
      simp [allOld]
    · rw [if_neg h2]
      push_neg at h2
      exact ⟨rfl, rfl, h1, h2⟩

theorem vAddAll_cons (bs : Nat) (v : View) (r : List Nat × Value)
    (recs : List (List Nat × Value)) :
    vAddAll bs v (r :: recs) = vAddAll bs (vAdd bs v r.1 r.2) recs := rfl

theorem addAll_cons (b : Builder) (r : List Nat × Value)
    (recs : List (List Nat × Value)) :
    b.addAll (r :: recs) = (b.add r.1 r.2).addAll recs := rfl

/-- Records whose keys avoid `k` leave the `k`-counts of both streams at
zero. -/
theorem avoid_steps (bs : Nat) (k : List Nat) (recs : List (List Nat × Value))
    (hk : ∀ r ∈ recs, r.1 ≠ k) :
    ∀ v : View, countKey k (allCur v) = 0 → countKey k (allOld v) = 0 →
      countKey k (allCur (vAddAll bs v recs)) = 0 ∧
      countKey k (allOld (vAddAll bs v recs)) = 0 := by
  induction recs with
  | nil => exact fun v h1 h2 => ⟨h1, h2⟩
  | cons r rest ih =>
    intro v h1 h2
    have hr : r.1 ≠ k := hk r (List.mem_cons_self r rest)
    have hrest : ∀ x ∈ rest, x.1 ≠ k := fun x hx => hk x (List.mem_cons_of_mem r hx)
    rw [vAddAll_cons]
    refine ih hrest _ ?_ ?_
    · cases hdup : vSameLast v.cur.staged r.1 with
      | true =>
        rw [(allCur_vAdd_dup hdup).1, countKey_vSetLastIfZero]
        exact h1
      | false =>
        rw [(allCur_vAdd_new hdup).1, countKey_append, h1, countKey_singleton]
        simp [VEntry.of, hr]
    · cases hdup : vSameLast v.cur.staged r.1 with
      | true =>
        rw [(allCur_vAdd_dup hdup).2, countKey_append, h2, countKey_singleton]
        simp [VEntry.of, hr]
      | false =>
        rw [(allCur_vAdd_new hdup).2]
        exact h2

/-- Processing the duplicate tail of a run of key `k`: the unique staged
`k`-entry keeps its value bytes, its old slot evolves by
`promoteIfZero`, and every duplicate is appended to the old stream. -/
theorem run_steps (bs : Nat) (k : List Nat) (vals : List Value) :
    ∀ (v : View) (A : List VEntry) (e : VEntry),
      allCur v = A ++ [e] → e.key = k → v.cur.staged ≠ [] →
      ∃ e' : VEntry,
        allCur (vAddAll bs v (vals.map (fun x => (k, x)))) = A ++ [e'] ∧
        e'.key = k ∧ e'.valBytes = e.valBytes ∧
        e'.old_ver = (vals.map Value.version).foldl promoteIfZero e.old_ver ∧
        allOld (vAddAll bs v (vals.map (fun x => (k, x)))) =
          allOld v ++ vals.map (fun x => VEntry.of k x) ∧
        (vAddAll bs v (vals.map (fun x => (k, x)))).cur.staged ≠ [] := by
  induction vals with
  | nil =>
    intro v A e hcur hkey hst
    exact ⟨e, by simpa using hcur, hkey, rfl, rfl, by simp [vAddAll], hst⟩
  | cons val rest ih =>
    intro v A e hcur hkey hst
    have hlast : v.cur.staged.getLast? = some e := by
      rw [staged_getLast?_eq v hst, hcur, getLast?_append_right A [e] (by simp)]
      rfl
    have hdup : vSameLast v.cur.staged k = true := by
      rw [vSameLast, hlast]
      simpa using hkey
    rw [List.map_cons, vAddAll_cons]
    have hc1 := @allCur_vAdd_dup bs _ _ val hdup
    have hLv : vLastOldVer [e] = e.old_ver := by
      rw [vLastOldVer]
      simp
    by_cases h0 : e.old_ver = 0
    · -- the slot is still empty: this duplicate is promoted into it
      have hsingle : vSetLastIfZero [e] val.version =
          [{ e with old_ver := val.version, esize := e.esize + 8 }] := by
        rw [vSetLastIfZero, hLv, if_pos h0]
        rfl
      have hcur' : allCur (vAdd bs v k val) =
          A ++ [{ e with old_ver := val.version, esize := e.esize + 8 }] := by
        rw [hc1.1, hcur, vSetLastIfZero_append A [e] _ (by simp), hsingle]
      obtain ⟨e', h1, h2, h3, h4, h5, h6⟩ :=
        ih (vAdd bs v k val) A _ hcur' hkey (vAdd_staged_ne bs v k val)
      refine ⟨e', h1, h2, h3, ?_, ?_, h6⟩
      · rw [h4, List.map_cons, List.foldl_cons]
        have : promoteIfZero e.old_ver val.version = val.version := by
          rw [promoteIfZero, if_pos h0]
        rw [this]
      · rw [h5, hc1.2, List.append_assoc, List.map_cons]
        rfl
    · -- the slot already holds an older version: no promotion
      have hsingle : vSetLastIfZero [e] val.version = [e] := by
        rw [vSetLastIfZero, hLv, if_neg h0]
      have hcur' : allCur (vAdd bs v k val) = A ++ [e] := by
        rw [hc1.1, hcur, vSetLastIfZero_append A [e] _ (by simp), hsingle]
      obtain ⟨e', h1, h2, h3, h4, h5, h6⟩ :=
        ih (vAdd bs v k val) A e hcur' hkey (vAdd_staged_ne bs v k val)
      refine ⟨e', h1, h2, h3, ?_, ?_, h6⟩
      · rw [h4, List.map_cons, List.foldl_cons]
        have : promoteIfZero e.old_ver val.version = e.old_ver := by
          rw [promoteIfZero, if_neg h0]
        rw [this]
      · rw [h5, hc1.2, List.append_assoc, List.map_cons]
        rfl

theorem cons_middle {α : Type} (A C : List α) (b : α) :
    A ++ b :: C = (A ++ [b]) ++ C := by
  rw [List.append_assoc]
  rfl

/-- After the run of key `k`, records with other keys never touch the
`k`-entry, never add a `k`-entry to the current stream, and never add a
`k`-entry to the old stream. -/
theorem post_steps (bs : Nat) (k : List Nat) (recs : List (List Nat × Value))
    (hk : ∀ r ∈ recs, r.1 ≠ k) :
    ∀ (v : View) (A B : List VEntry) (e : VEntry),
      allCur v = A ++ e :: B → e.key = k → countKey k B = 0 →
      ∃ B' extra,
        allCur (vAddAll bs v recs) = A ++ e :: B' ∧ countKey k B' = 0 ∧
        allOld (vAddAll bs v recs) = allOld v ++ extra ∧ countKey k extra = 0 := by
  induction recs with
  | nil =>
    intro v A B e hcur hkey hB
    exact ⟨B, [], hcur, hB, by simp [vAddAll], rfl⟩
  | cons r rest ih =>
    intro v A B e hcur hkey hB
    have hr : r.1 ≠ k := hk r (List.mem_cons_self r rest)
    have hrest : ∀ x ∈ rest, x.1 ≠ k := fun x hx => hk x (List.mem_cons_of_mem r hx)
    rw [vAddAll_cons]
    cases hdup : vSameLast v.cur.staged r.1 with
    | true =>
      have hstne : v.cur.staged ≠ [] := vSameLast_ne_nil hdup
      have hBne : B ≠ [] := by
        intro hBnil
        subst hBnil
        have h1 : v.cur.staged.getLast? = some e := by
          rw [staged_getLast?_eq v hstne, hcur,
            getLast?_append_right A [e] (by simp)]
          rfl
        rw [vSameLast, h1] at hdup
        have : e.key = r.1 := by simpa using hdup
        exact hr (by rw [← this, hkey])
      have hc := @allCur_vAdd_dup bs _ _ r.2 hdup
      have hcur' : allCur (vAdd bs v r.1 r.2) =
          A ++ e :: vSetLastIfZero B r.2.version := by
        rw [hc.1, hcur, cons_middle,
          vSetLastIfZero_append (A ++ [e]) B _ hBne, ← cons_middle]
      have hB' : countKey k (vSetLastIfZero B r.2.version) = 0 := by
        rw [countKey_vSetLastIfZero]
        exact hB
      obtain ⟨B', extra, h1, h2, h3, h4⟩ :=
        ih hrest (vAdd bs v r.1 r.2) A _ e hcur' hkey hB'
      refine ⟨B', VEntry.of r.1 r.2 :: extra, h1, h2, ?_, ?_⟩
      · rw [h3, hc.2, List.append_assoc]
        rfl
      · rw [show VEntry.of r.1 r.2 :: extra = [VEntry.of r.1 r.2] ++ extra from rfl,
          countKey_append, countKey_singleton, h4]
        simp [VEntry.of, hr]
    | false =>
      have hc := @allCur_vAdd_new bs _ _ r.2 hdup
      have hcur' : allCur (vAdd bs v r.1 r.2) =
          A ++ e :: (B ++ [VEntry.of r.1 r.2]) := by
        rw [hc.1, hcur]
        simp
      have hB' : countKey k (B ++ [VEntry.of r.1 r.2]) = 0 := by
        rw [countKey_append, hB, countKey_singleton]
        simp [VEntry.of, hr]
      obtain ⟨B', extra, h1, h2, h3, h4⟩ :=
        ih hrest (vAdd bs v r.1 r.2) A _ e hcur' hkey hB'
      refine ⟨B', extra, h1, h2, ?_, h4⟩
      rw [h3, hc.2]

theorem vSameLast_false_of_count0 {v : View} {k : List Nat}
    (h : countKey k (allCur v) = 0) : vSameLast v.cur.staged k = false := by
  by_cases hst : v.cur.staged = []
  · simp [vSameLast, hst]
  · rw [vSameLast]
    cases hl : v.cur.staged.getLast? with
    | none => rfl
    | some e =>
      have hget := getLast?_eq_getD v.cur.staged dVEntry hst
      rw [hl] at hget
      have he : e = v.cur.staged.getD (v.cur.staged.length - 1) dVEntry :=
        Option.some.inj hget
      have hlt : v.cur.staged.length - 1 < v.cur.staged.length :=
        Nat.sub_lt (List.length_pos.mpr hst) Nat.one_pos
      have hmem : e ∈ v.cur.staged := by
        rw [he, List.getD_eq_getElem _ _ hlt]
        exact List.getElem_mem _
      have hmem' : e ∈ allCur v := List.mem_append_right _ hmem
      have hne : e.key ≠ k := (countKey_eq_zero_iff k (allCur v)).mp h e hmem'
      simpa using hne

theorem add_checksum_tp (b : Builder) (key : List Nat) (val : Value) :
    (b.add key val).checksum_tp = b.checksum_tp := by
  rw [Builder.add]
  split
  · rfl
  · dsimp only
    split <;> split <;> rfl

theorem addAll_checksum_tp (b : Builder) (recs : List (List Nat × Value)) :
    (b.addAll recs).checksum_tp = b.checksum_tp := by
  induction recs generalizing b with
  | nil => rfl
  | cons r rest ih =>
    rw [addAll_cons, ih, add_checksum_tp]

theorem phase_checksum_tp (b : Builder) :
    b.finishBlocksPhase.checksum_tp = b.checksum_tp := by
  rw [Builder.finishBlocksPhase]
  split <;> split <;> rfl

theorem foldl_promoteIfZero_of_ne {s : Nat} (h : s ≠ 0) (l : List Nat) :
    l.foldl promoteIfZero s = s := by
  induction l with
  | nil => rfl
  | cons x xs ih =>
    rw [List.foldl_cons, promoteIfZero, if_neg h, ih]

theorem foldl_promoteIfZero_ne_zero (l : List Nat) :
    l.foldl promoteIfZero 0 ≠ 0 ↔ ∃ x ∈ l, x ≠ 0 := by
  induction l with
  | nil => simp [List.foldl_nil]
  | cons x xs ih =>
    rw [List.foldl_cons, promoteIfZero, if_pos rfl]
    by_cases hx : x = 0
    · subst hx
      simp only [List.mem_cons]
      constructor
      · intro h
        obtain ⟨y, hy, hyne⟩ := ih.mp h
        exact ⟨y, Or.inr hy, hyne⟩
      · intro ⟨y, hy, hyne⟩
        rcases hy with hy | hy
        · exact absurd hy hyne
        · exact ih.mpr ⟨y, hy, hyne⟩
    · rw [foldl_promoteIfZero_of_ne hx]
      simp only [List.mem_cons]
      constructor
      · intro _
        exact ⟨x, Or.inl rfl, hx⟩
      · intro _
        exact hx

theorem emittedMeta_hasOld (e : VEntry) :
    e.emittedMeta &&& META_HAS_OLD ≠ 0 ↔ e.old_ver ≠ 0 := by
  rw [VEntry.emittedMeta]
  by_cases h : e.old_ver ≠ 0
  · rw [if_pos h]
    have h2 : ((Value.decode e.valBytes).meta ||| META_HAS_OLD) &&& META_HAS_OLD =
        META_HAS_OLD := by
      apply Nat.eq_of_testBit_eq
      intro j
      cases hb : Nat.testBit META_HAS_OLD j <;>
        simp [Nat.testBit_land, Nat.testBit_lor, hb]
    rw [h2]
    simp [META_HAS_OLD, h]
  · rw [if_neg h]
    have h2 : ((Value.decode e.valBytes).meta &&& 253) &&& META_HAS_OLD = 0 := by
      apply Nat.eq_of_testBit_eq
      intro j
      have h253 : (253 : Nat) &&& META_HAS_OLD = 0 := by decide
      rw [Nat.land_assoc, h253]
      simp
    rw [h2]
    simpa using h

theorem vAddAll_append (bs : Nat) (v : View) (l1 l2 : List (List Nat × Value)) :
    vAddAll bs v (l1 ++ l2) = vAddAll bs (vAddAll bs v l1) l2 := by
  rw [vAddAll, vAddAll, vAddAll, List.foldl_append]

theorem countKey_map_of_self (k : List Nat) (l : List Value) :
    countKey k (l.map (fun x => VEntry.of k x)) = l.length := by
  induction l with
  | nil => rfl
  | cons x xs ih =>
    rw [List.map_cons,
      show VEntry.of k x :: xs.map (fun x => VEntry.of k x) =
        [VEntry.of k x] ++ xs.map (fun x => VEntry.of k x) from rfl,
      countKey_append, countKey_singleton, ih]
    simp [VEntry.of]
    omega

/-- The heart of the duplicate-run analysis, carried out on the view:
after all records and the closing phase, the current stream holds exactly
one `k`-entry, whose old slot is the promote-fold of the duplicate
versions, and the old stream holds one entry per duplicate. -/
theorem view_duplicate_run (bs : Nat) (pre post : List (List Nat × Value))
    (k : List Nat) (v1 : Value) (vrest : List Value)
    (hpre : ∀ r ∈ pre, r.1 ≠ k) (hpost : ∀ r ∈ post, r.1 ≠ k) :
    ∃ e' : VEntry,
      (vPhase1 (vAddAll bs vInit
        (pre ++ (v1 :: vrest).map (fun x => (k, x)) ++ post))).cur.staged = [] ∧
      (vPhase1 (vAddAll bs vInit
        (pre ++ (v1 :: vrest).map (fun x => (k, x)) ++ post))).old.staged = [] ∧
      countKey k (vPhase1 (vAddAll bs vInit
        (pre ++ (v1 :: vrest).map (fun x => (k, x)) ++ post))).cur.done.flatten = 1 ∧
      countKey k (vPhase1 (vAddAll bs vInit
        (pre ++ (v1 :: vrest).map (fun x => (k, x)) ++ post))).old.done.flatten =
        vrest.length ∧
      (∀ e ∈ (vPhase1 (vAddAll bs vInit
        (pre ++ (v1 :: vrest).map (fun x => (k, x)) ++ post))).cur.done.flatten,
        e.key = k → e = e') ∧
      e'.old_ver = (vrest.map Value.version).foldl promoteIfZero 0 := by
  have hpre0 := avoid_steps bs k pre hpre vInit rfl rfl
  set wA := vAddAll bs vInit pre with hwA
  have hfalse : vSameLast wA.cur.staged k = false :=
    vSameLast_false_of_count0 hpre0.1
  set w1 := vAdd bs wA k v1 with hw1
  have hstep := @allCur_vAdd_new bs _ _ v1 hfalse
  have hcur1 : allCur w1 = allCur wA ++ [VEntry.of k v1] := hstep.1
  have hold1 : allOld w1 = allOld wA := hstep.2
  obtain ⟨e', hr1, hr2, hr3, hr4, hr5, hr6⟩ :=
    run_steps bs k vrest w1 (allCur wA) (VEntry.of k v1) hcur1 rfl
      (hw1 ▸ vAdd_staged_ne bs wA k v1)
  set w2 := vAddAll bs w1 (vrest.map fun x => (k, x)) with hw2
  obtain ⟨B', extra, hp1, hp2, hp3, hp4⟩ :=
    post_steps bs k post hpost w2 (allCur wA) [] e' (by simpa using hr1) hr2 rfl
  set w3 := vAddAll bs w2 post with hw3
  have hw3eq : vAddAll bs vInit
      (pre ++ (v1 :: vrest).map (fun x => (k, x)) ++ post) = w3 := by
    rw [hw3, hw2, hw1, hwA, List.map_cons, vAddAll_append, vAddAll_append,
      vAddAll_cons]
  obtain ⟨hph1, hph2, hph3, hph4⟩ := allCur_vPhase1 w3
  have hflatC : (vPhase1 w3).cur.done.flatten = allCur w3 := by
    rw [← hph1, allCur, hph3, List.append_nil]
  have hflatO : (vPhase1 w3).old.done.flatten = allOld w3 := by
    rw [← hph2, allOld, hph4, List.append_nil]
  rw [hw3eq]
  refine ⟨e', hph3, hph4, ?_, ?_, ?_, ?_⟩
  · rw [hflatC, hp1, countKey_append, hpre0.1,
      show e' :: B' = [e'] ++ B' from rfl, countKey_append,
      countKey_singleton, if_pos hr2, hp2]
  · rw [hflatO, hp3, hr5, hold1, countKey_append, countKey_append, hpre0.2,
      countKey_map_of_self, hp4]
    omega
  · intro e he hek
    rw [hflatC, hp1] at he
    rcases List.mem_append.mp he with hA | hB
    · exact absurd hek ((countKey_eq_zero_iff k _).mp hpre0.1 e hA)
    · rcases List.mem_cons.mp hB with he' | hB'
      · exact he'
      · exact absurd hek ((countKey_eq_zero_iff k _).mp hp2 e hB')
  · simpa using hr4

/-- Claim C2 (amended). — For every add-sequence containing a maximal run of
`n ≥ 1` adjacent records with the same key `k` (its key appearing nowhere
else), after the block-closing phase of `finish` the current data stream
serializes blocks holding exactly one entry for `k`, the old-versions
stream holds exactly `n − 1` entries for `k`, and the unique `k`-entry's
emitted meta byte has `META_HAS_OLD` set iff `n ≥ 2` AND at least one of
the duplicate records carries a non-zero version (a version-0 duplicate
leaves the old slot empty, so the flag stays clear). -/
theorem duplicate_run_streams
    (fid : Nat) (opt : TableBuilderOptions)
    (pre post : List (List Nat × Value)) (k : List Nat) (vs : List Value)
    (hvs : vs ≠ [])
    (hpre : ∀ r ∈ pre, r.1 ≠ k) (hpost : ∀ r ∈ post, r.1 ≠ k) :
    ∃ curBlocks oldBlocks : List (List VEntry),
      (((Builder.new fid opt).addAll
        (pre ++ vs.map (fun x => (k, x)) ++ post)).finishBlocksPhase).block_builder.buf =
        (curBlocks.map (serializeBlock CRC32_CASTAGNOLI)).flatten ∧
      (((Builder.new fid opt).addAll
        (pre ++ vs.map (fun x => (k, x)) ++ post)).finishBlocksPhase).old_builder.buf =
        (oldBlocks.map (serializeBlock CRC32_CASTAGNOLI)).flatten ∧
      countKey k curBlocks.flatten = 1 ∧
      countKey k oldBlocks.flatten = vs.length - 1 ∧
      (∀ e ∈ curBlocks.flatten, e.key = k →
        (e.emittedMeta &&& META_HAS_OLD ≠ 0 ↔
          2 ≤ vs.length ∧ ∃ x ∈ vs.drop 1, x.version ≠ 0)) := by
  obtain ⟨v1, vrest, rfl⟩ : ∃ v1 vrest, vs = v1 :: vrest := by
    cases vs with
    | nil => exact absurd rfl hvs
    | cons a l => exact ⟨a, l, rfl⟩
  have hrel : VRel
      ((Builder.new fid opt).addAll
        (pre ++ (v1 :: vrest).map (fun x => (k, x)) ++ post))
      (vAddAll (Builder.new fid opt).block_size vInit
        (pre ++ (v1 :: vrest).map (fun x => (k, x)) ++ post)) :=
    vrel_addAll (vrel_new fid opt) _
  have hrel2 := vrel_phase1 hrel
  obtain ⟨e', hst1, hst2, hc1, hc2, huniq, hov⟩ :=
    view_duplicate_run (Builder.new fid opt).block_size pre post k v1 vrest
      hpre hpost
  have hcs : (((Builder.new fid opt).addAll
      (pre ++ (v1 :: vrest).map (fun x => (k, x)) ++ post)).finishBlocksPhase).checksum_tp =
      CRC32_CASTAGNOLI := by
    rw [phase_checksum_tp, addAll_checksum_tp]
    rfl
  refine ⟨(vPhase1 (vAddAll (Builder.new fid opt).block_size vInit
      (pre ++ (v1 :: vrest).map (fun x => (k, x)) ++ post))).cur.done,
    (vPhase1 (vAddAll (Builder.new fid opt).block_size vInit
      (pre ++ (v1 :: vrest).map (fun x => (k, x)) ++ post))).old.done,
    ?_, ?_, hc1, by simpa using hc2, ?_⟩
  · have hbuf := hrel2.2.1
    rw [hcs] at hbuf
    exact hbuf
  · have hbuf := hrel2.2.2.2.1
    rw [hcs] at hbuf
    exact hbuf
  · intro e he hek
    rw [huniq e he hek, emittedMeta_hasOld, hov, foldl_promoteIfZero_ne_zero]
    constructor
    · intro ⟨x, hx, hxne⟩
      obtain ⟨val, hval, hvx⟩ := List.mem_map.mp hx
      have hne : vrest ≠ [] := List.ne_nil_of_mem hval
      have hlen : 1 ≤ vrest.length := List.length_pos.mpr hne
      refine ⟨by simp; omega, val, by simpa using hval, ?_⟩
      rw [hvx]
      exact hxne
    · intro ⟨_, x, hx, hxne⟩
      exact ⟨x.version, List.mem_map_of_mem Value.version (by simpa using hx), hxne⟩

/-! Section: Smallest-key lemmas (C8) -/

theorem add_smallest_of_ne {b : Builder} (h : b.smallest ≠ [])
    (key : List Nat) (val : Value) : (b.add key val).smallest = b.smallest := by
  have hlen : ¬ b.smallest.length = 0 := by
    simpa using h
  rw [Builder.add]
  split
  · rfl
  · dsimp only
    have h2 : ∀ X : Builder, X.smallest = b.smallest →
        ({ X with
            block_builder := X.block_builder.add_entry key val,
            key_hashes := X.key_hashes ++ [farmhashFingerprint64 key],
            smallest := if X.smallest.length = 0 then X.smallest ++ key
              else X.smallest } : Builder).smallest = b.smallest := by
      intro X hX
      show (if X.smallest.length = 0 then X.smallest ++ key else X.smallest) =
        b.smallest
      rw [hX, if_neg hlen]
    apply h2
    split <;> split <;> rfl

theorem addAll_smallest_of_ne {b : Builder} (h : b.smallest ≠ [])
    (recs : List (List Nat × Value)) : (b.addAll recs).smallest = b.smallest := by
  induction recs generalizing b with
  | nil => rfl
  | cons r rest ih =>
    rw [addAll_cons, ih (by rw [add_smallest_of_ne h]; exact h),
      add_smallest_of_ne h]

theorem phase_smallest (b : Builder) :
    b.finishBlocksPhase.smallest = b.smallest := by
  rw [Builder.finishBlocksPhase]
  split <;> split <;> rfl

theorem first_add_smallest (fid : Nat) (opt : TableBuilderOptions)
    (k1 : List Nat) (v1 : Value) :
    ((Builder.new fid opt).add k1 v1).smallest = k1 := by
  have hrel := vrel_add (vrel_new fid opt) k1 v1
  rw [hrel.2.2.2.2.2.1, vAdd]
  have hfalse : vSameLast vInit.cur.staged k1 = false := rfl
  rw [hfalse, if_neg (by simp)]
  dsimp only
  show (if vInit.smallest.length = 0 then vInit.smallest ++ k1
    else vInit.smallest) = k1
  rw [if_pos (show vInit.smallest.length = 0 from rfl)]
  rfl

theorem set_last_size (bb : BlockBuilder) (ver : Nat) :
    (bb.set_last_entry_old_ver_if_zero ver).block.size = bb.block.size := by
  rw [BlockBuilder.set_last_entry_old_ver_if_zero]
  dsimp only
  split <;> rfl

theorem bump_sum (l : List Nat) (i x : Nat) (h : i < l.length) :
    (l.set i (l.getD i 0 + x)).sum = l.sum + x := by
  induction l generalizing i with
  | nil => simp at h
  | cons a as ih =>
    cases i with
    | zero =>
      show ((a + x) :: as).sum = (a :: as).sum + x
      simp only [List.sum_cons]
      omega
    | succ j =>
      have hj : j < as.length := by simpa using h
      show (a :: as.set j (as.getD j 0 + x)).sum = (a :: as).sum + x
      simp only [List.sum_cons]
      rw [ih j hj]
      omega

theorem set_last_esum (bb : BlockBuilder) (ver : Nat) :
    (bb.set_last_entry_old_ver_if_zero ver).block.entry_sizes.sum =
      bb.block.entry_sizes.sum ∨
    (bb.set_last_entry_old_ver_if_zero ver).block.entry_sizes.sum =
      bb.block.entry_sizes.sum + 8 := by
  rw [BlockBuilder.set_last_entry_old_ver_if_zero]
  dsimp only
  split
  · by_cases hne : bb.block.entry_sizes = []
    · left
      rw [hne]
      rfl
    · right
      exact bump_sum _ _ _ (Nat.sub_lt (List.length_pos.mpr hne) Nat.one_pos)
  · left
    rfl

theorem applyOps_size (ops : List BlockOp) :
    ∀ bb : BlockBuilder,
      (applyOps bb ops).block.size = bb.block.size + pushedSum ops := by
  induction ops with
  | nil =>
    intro bb
    simp [applyOps, pushedSum]
  | cons op rest ih =>
    intro bb
    show (applyOps (applyOp bb op) rest).block.size = _
    rw [ih]
    cases op with
    | addE k v =>
      show (bb.add_entry k v).block.size + pushedSum rest = _
      rw [BlockBuilder.add_entry]
      simp [pushedSum]
      omega
    | setOld ver =>
      rw [applyOp, set_last_size]
      simp [pushedSum]

theorem applyOps_esum (ops : List BlockOp) :
    ∀ bb : BlockBuilder, ∃ m,
      (applyOps bb ops).block.entry_sizes.sum =
        bb.block.entry_sizes.sum + pushedSum ops + 8 * m := by
  induction ops with
  | nil =>
    intro bb
    exact ⟨0, by simp [applyOps, pushedSum]⟩
  | cons op rest ih =>
    intro bb
    obtain ⟨m, hm⟩ := ih (applyOp bb op)
    cases op with
    | addE k v =>
      refine ⟨m, ?_⟩
      have hstep : (applyOp bb (BlockOp.addE k v)).block.entry_sizes.sum =
          bb.block.entry_sizes.sum + (2 + k.length + v.encoded_size) := by
        show (bb.add_entry k v).block.entry_sizes.sum = _
        rw [BlockBuilder.add_entry]
        simp
      show (applyOps (applyOp bb (BlockOp.addE k v)) rest).block.entry_sizes.sum = _
      rw [hm, hstep]
      simp [pushedSum]
      omega
    | setOld ver =>
      rcases set_last_esum bb ver with he | he
      · refine ⟨m, ?_⟩
        show (applyOps (applyOp bb (BlockOp.setOld ver)) rest).block.entry_sizes.sum = _
        rw [hm]
        show (bb.set_last_entry_old_ver_if_zero ver).block.entry_sizes.sum +
          pushedSum rest + 8 * m = _
        rw [he]
        simp [pushedSum]
      · refine ⟨m + 1, ?_⟩
        show (applyOps (applyOp bb (BlockOp.setOld ver)) rest).block.entry_sizes.sum = _
        rw [hm]
        show (bb.set_last_entry_old_ver_if_zero ver).block.entry_sizes.sum +
          pushedSum rest + 8 * m = _
        rw [he]
        simp [pushedSum]
        omega

/-! Section: Claim theorems -/

/-- Claim C1 (amended). — The footer marshals to a fixed trailer of exactly
`FOOTER_SIZE = 24` bytes — four `u32` offsets (16), two `u8` (2), one
`u16` (2) and the `u32` magic (4) in declaration order with no padding —
for every footer value.  The spec's figure of 20 bytes undercounts by
one `u32`. -/
theorem footer_marshal_size :
    FOOTER_SIZE = 24 ∧ ∀ f : Footer, f.marshal.length = FOOTER_SIZE := by
  refine ⟨rfl, fun f => ?_⟩
  rw [Footer.marshal, FOOTER_SIZE]
  simp [u32le, u16le]

/-- Claim C1 counterexample. — `mem::size_of::<Footer>()` is 24, not 20: the
default footer already marshals to 24 bytes. -/
theorem footer_size_cex :
    Footer.default.marshal.length = 24 ∧ ¬ (FOOTER_SIZE = 20) := by
  constructor
  · decide
  · decide

/-- Claim C4 (amended). — In every state reachable by `add_entry` and
`set_last_entry_old_ver_if_zero` from an empty block, `size` equals the
running sum of the entry sizes *as pushed* (`2 + key_len + encoded value
len` per `add_entry`); `set_last_entry_old_ver_if_zero` bumps the last
`entry_sizes` cell by 8 without touching `size`, so `Σ entry_sizes`
exceeds `size` by 8 per slot-filling promotion. -/
theorem block_size_pushed_sum (ops : List BlockOp) :
    (applyOps BlockBuilder.empty ops).block.size = pushedSum ops ∧
    (∀ bb : BlockBuilder, ∀ ver : Nat,
      (bb.set_last_entry_old_ver_if_zero ver).block.size = bb.block.size) ∧
    ∃ m, (applyOps BlockBuilder.empty ops).block.entry_sizes.sum =
      (applyOps BlockBuilder.empty ops).block.size + 8 * m := by
  have hsize : (applyOps BlockBuilder.empty ops).block.size = pushedSum ops := by
    rw [applyOps_size]
    show 0 + pushedSum ops = pushedSum ops
    omega
  refine ⟨hsize, set_last_size, ?_⟩
  obtain ⟨m, hm⟩ := applyOps_esum ops BlockBuilder.empty
  refine ⟨m, ?_⟩
  rw [hm, hsize]
  show 0 + pushedSum ops + 8 * m = pushedSum ops + 8 * m
  omega

/-- Claim C4 counterexample. — After `add_entry("a", v)` followed by
`set_last_entry_old_ver_if_zero(7)`, `size = 13` but
`Σ entry_sizes = 21`: the claimed invariant `size = Σ entry_sizes[i]`
fails in a reachable state. -/
theorem block_size_sum_cex :
    ¬ ((applyOps BlockBuilder.empty
        [BlockOp.addE [97] ⟨0, 5, [], []⟩, BlockOp.setOld 7]).block.size =
      (applyOps BlockBuilder.empty
        [BlockOp.addE [97] ⟨0, 5, [], []⟩,
          BlockOp.setOld 7]).block.entry_sizes.sum) := by
  decide

/-- Claim C8 (amended). — Provided the first key added is non-empty,
`smallest` is set by that first `add` and never mutated afterwards — it
equals the first key both after all adds and after the block-closing
phase of `finish`.  (With an empty first key the `smallest.len() == 0`
guard re-fires on a later key.) -/
theorem smallest_is_first_key (fid : Nat) (opt : TableBuilderOptions)
    (k1 : List Nat) (v1 : Value) (rest : List (List Nat × Value))
    (h : k1 ≠ []) :
    ((Builder.new fid opt).addAll ((k1, v1) :: rest)).smallest = k1 ∧
    ((Builder.new fid opt).addAll
      ((k1, v1) :: rest)).finishBlocksPhase.smallest = k1 := by
  have h1 : ((Builder.new fid opt).add k1 v1).smallest = k1 :=
    first_add_smallest fid opt k1 v1
  have h2 : ((Builder.new fid opt).addAll ((k1, v1) :: rest)).smallest = k1 := by
    rw [addAll_cons, addAll_smallest_of_ne (by rw [h1]; exact h), h1]
  exact ⟨h2, by rw [phase_smallest, h2]⟩

theorem smallest_is_first_key_witness :
    ([97] : List Nat) ≠ [] ∧
    ((Builder.new 1 TableBuilderOptions.default).addAll
      [([97], ⟨0, 1, [], []⟩)]).smallest = [97] :=
  ⟨by decide,
    (smallest_is_first_key 1 TableBuilderOptions.default [97] ⟨0, 1, [], []⟩ []
      (by decide)).1⟩

/-- Claim C8 counterexample. — Adding the empty key first and then `"a"`
leaves `smallest = "a"`, not the first key added (the empty string): the
`smallest.len() == 0` guard re-fires because extending by the empty key
left it empty. -/
theorem smallest_empty_first_key_cex :
    ((Builder.new 1 TableBuilderOptions.default).addAll
      [([], ⟨0, 1, [], []⟩), ([97], ⟨0, 1, [], []⟩)]).smallest = [97] ∧
    ([97] : List Nat) ≠ [] := by
  constructor
  · decide
  · decide

theorem vAddAll_staged_ne (bs : Nat) :
    ∀ (recs : List (List Nat × Value)) (v : View), recs ≠ [] →
      (vAddAll bs v recs).cur.staged ≠ [] := by
  intro recs
  induction recs with
  | nil => exact fun v h => absurd rfl h
  | cons r rest ih =>
    intro v _
    rw [vAddAll_cons]
    by_cases hr : rest = []
    · rw [hr]
      exact vAdd_staged_ne bs v r.1 r.2
    · exact ih (vAdd bs v r.1 r.2) hr

theorem entrySlice_length_append (es : EntrySlice) (d : List Nat) :
    (es.append d).length = es.length + 1 := by
  rw [EntrySlice.append, EntrySlice.length, EntrySlice.length]
  simp

theorem phase_block_keys_pos (b : Builder)
    (h : 0 < b.block_builder.block.size) :
    0 < b.finishBlocksPhase.block_builder.block_keys.length := by
  rw [Builder.finishBlocksPhase]
  rw [if_pos h]
  have hfb : 0 < (b.block_builder.finish_block b.fid b.checksum_tp).block_keys.length := by
    rw [BlockBuilder.finish_block]
    dsimp only
    rw [entrySlice_length_append]
    omega
  split
  · exact hfb
  · exact hfb

theorem addAll_size_pos (fid : Nat) (opt : TableBuilderOptions)
    (recs : List (List Nat × Value)) (h : recs ≠ []) :
    0 < ((Builder.new fid opt).addAll recs).block_builder.block.size := by
  have hrel := vrel_addAll (vrel_new fid opt) recs
  have hstne := vAddAll_staged_ne (Builder.new fid opt).block_size recs vInit h
  rw [hrel.1.2.2.2.2]
  exact (vSize_pos_iff _).mpr hstne

/-- Claim C6. — After `finish`, the footer's offsets are the cumulative
section sizes within the SST blob (as `u32` values): `old_data_offset`
is the data section's size, and each further offset adds the previous
section's size; its constant fields are `compression_type = 0`,
`checksum_type = CRC32_CASTAGNOLI`, `table_format_version = 1`,
`magic = 2940551257`. -/
theorem finish_footer_layout (fid : Nat) (opt : TableBuilderOptions)
    (base_off : Nat) (recs : List (List Nat × Value)) (data_buf : List Nat)
    (h : recs ≠ []) :
    ∃ (res : BuildResult) (dataS oldS idxS oidxS props : List Nat) (f : Footer),
      ((Builder.new fid opt).addAll recs).finish base_off data_buf =
        some (res, data_buf ++ dataS ++ oldS ++ idxS ++ oidxS ++ props ++
          f.marshal) ∧
      f.old_data_offset = dataS.length % 2 ^ 32 ∧
      f.index_offset = (f.old_data_offset + oldS.length % 2 ^ 32) % 2 ^ 32 ∧
      f.old_index_offset = (f.index_offset + idxS.length % 2 ^ 32) % 2 ^ 32 ∧
      f.properties_offset =
        (f.old_index_offset + oidxS.length % 2 ^ 32) % 2 ^ 32 ∧
      f.compression_type = NO_COMPRESSION ∧
      f.checksum_type = CRC32_CASTAGNOLI ∧
      f.table_format_version = TABLE_FORMAT ∧
      f.magic = MAGIC_NUMBER := by
  have hsz := addAll_size_pos fid opt recs h
  have hbk := phase_block_keys_pos _ hsz
  have hcs : ((Builder.new fid opt).addAll recs).finishBlocksPhase.checksum_tp =
      CRC32_CASTAGNOLI := by
    rw [phase_checksum_tp, addAll_checksum_tp]
    rfl
  rw [Builder.finish]
  dsimp only
  rw [if_pos hbk]
  refine ⟨_, _, _, _, _, _, _, rfl, rfl, rfl, rfl, rfl, rfl, hcs, rfl, rfl⟩

theorem finish_footer_layout_witness :
    ([([107], ⟨0, 3, [], []⟩)] : List (List Nat × Value)) ≠ [] ∧
    ∃ (res : BuildResult) (dataS oldS idxS oidxS props : List Nat) (f : Footer),
      ((Builder.new 1 TableBuilderOptions.default).addAll
          [([107], ⟨0, 3, [], []⟩)]).finish 0 [] =
        some (res, [] ++ dataS ++ oldS ++ idxS ++ oidxS ++ props ++
          f.marshal) ∧
      f.old_data_offset = dataS.length % 2 ^ 32 ∧
      f.index_offset = (f.old_data_offset + oldS.length % 2 ^ 32) % 2 ^ 32 ∧
      f.old_index_offset = (f.index_offset + idxS.length % 2 ^ 32) % 2 ^ 32 ∧
      f.properties_offset =
        (f.old_index_offset + oidxS.length % 2 ^ 32) % 2 ^ 32 ∧
      f.compression_type = NO_COMPRESSION ∧
      f.checksum_type = CRC32_CASTAGNOLI ∧
      f.table_format_version = TABLE_FORMAT ∧
      f.magic = MAGIC_NUMBER :=
  ⟨by decide,
    finish_footer_layout 1 TableBuilderOptions.default 0
      [([107], ⟨0, 3, [], []⟩)] [] (by decide)⟩

/-- Claim C7. — With `checksum_type = CRC32_CASTAGNOLI`, every emitted region
stores in its first 4 bytes the little-endian CRC32C of all its bytes
after the 4-byte slot: the region a finished data block appends, the
index section `build_index` produces, and the properties section. -/
theorem checksum_regions :
    (∀ (bb : BlockBuilder) (fid : Nat),
      ∃ region, (bb.finish_block fid CRC32_CASTAGNOLI).buf = bb.buf ++ region ∧
        region.take 4 = u32le (crc32c (region.drop 4))) ∧
    (∀ (bb : BlockBuilder) (base_off : Nat) (key_hashes : List Nat),
      (bb.build_index base_off CRC32_CASTAGNOLI key_hashes).buf.take 4 =
        u32le (crc32c
          ((bb.build_index base_off CRC32_CASTAGNOLI key_hashes).buf.drop 4))) ∧
    (∀ b : Builder, b.checksum_tp = CRC32_CASTAGNOLI →
      b.build_properties_bytes.take 4 =
        u32le (crc32c (b.build_properties_bytes.drop 4))) := by
  refine ⟨?_, ?_, ?_⟩
  · intro bb fid
    refine ⟨u32le (crc32c (BlockBuilder.blockBody bb.block)) ++
      BlockBuilder.blockBody bb.block, ?_, ?_⟩
    · rw [BlockBuilder.finish_block]
      dsimp only
      rw [if_pos rfl, List.append_assoc]
    · rw [show (4 : Nat) = (u32le (crc32c (BlockBuilder.blockBody bb.block))).length
        from rfl, List.take_left, List.drop_left]
  · intro bb base_off key_hashes
    rw [BlockBuilder.build_index]
    dsimp only
    rw [if_pos rfl]
    rw [show (4 : Nat) =
      (u32le (crc32c (bb.indexBody base_off key_hashes))).length from rfl,
      List.take_left, List.drop_left]
  · intro b hb
    rw [Builder.build_properties_bytes]
    rw [if_pos hb]
    rw [show (4 : Nat) = (u32le (crc32c (Builder.add_property
      (Builder.add_property [] PROP_KEY_SMALLEST b.smallest) PROP_KEY_BIGGEST
      b.biggest))).length from rfl, List.take_left, List.drop_left]

theorem checksum_regions_witness :
    (Builder.new 1 TableBuilderOptions.default).checksum_tp =
      CRC32_CASTAGNOLI ∧
    (Builder.new 1 TableBuilderOptions.default).build_properties_bytes.take 4 =
      u32le (crc32c
        ((Builder.new 1 TableBuilderOptions.default).build_properties_bytes.drop 4)) :=
  ⟨rfl, checksum_regions.2.2 (Builder.new 1 TableBuilderOptions.default) rfl⟩

/-- Claim C9. — The index section consists of its header/body, then the
extras, then `EXTRA_END`; the filter extra bytes are present iff
`key_hashes` is non-empty and Binary Fuse 8 construction succeeds; on
failure (or an empty hash slice, as for the old-versions index) the
extras region is empty and the index still terminates with `EXTRA_END`. -/
theorem index_filter_extra (bb : BlockBuilder)
    (base_off checksum_tp : Nat) (key_hashes : List Nat) :
    ∃ main : List Nat,
      (bb.build_index base_off checksum_tp key_hashes).buf =
        main ++ (if key_hashes.length > 0 then
          BlockBuilder.build_filter_bytes key_hashes else []) ++ [EXTRA_END] ∧
      ((if key_hashes.length > 0 then
          BlockBuilder.build_filter_bytes key_hashes else []) ≠ [] ↔
        key_hashes ≠ [] ∧ (binaryFuse8TryFrom key_hashes).isSome) ∧
      (key_hashes = [] →
        (if key_hashes.length > 0 then
          BlockBuilder.build_filter_bytes key_hashes else []) = []) := by
  refine ⟨u32le (if checksum_tp = CRC32_CASTAGNOLI then
      crc32c (bb.indexBody base_off key_hashes) else 0) ++
    (u32le bb.block_addrs.length ++
      BlockBuilder.entryOffsetAcc
        (if bb.block_addrs.length > 0 then bb.get_index_common_prefix_len else 0) 0
        ((List.range bb.block_addrs.length).map
          (fun i => (bb.block_keys.get_entry i).length)) ++
      bb.block_addrs.flatMap (fun a =>
        u64le a.origin_fid ++ u32le (a.origin_off + base_off) ++
          u32le (a.curr_off + base_off)) ++
      u16le (if bb.block_addrs.length > 0 then
        bb.get_index_common_prefix_len else 0) ++
      (if (if bb.block_addrs.length > 0 then
          bb.get_index_common_prefix_len else 0) > 0 then
        (bb.block_keys.get_entry 0).take
          (if bb.block_addrs.length > 0 then
            bb.get_index_common_prefix_len else 0)
      else []) ++
      u32le (bb.block_keys.buf.length - bb.block_addrs.length *
        (if bb.block_addrs.length > 0 then
          bb.get_index_common_prefix_len else 0)) ++
      (List.range bb.block_addrs.length).flatMap
        (fun i => (bb.block_keys.get_entry i).drop
          (if bb.block_addrs.length > 0 then
            bb.get_index_common_prefix_len else 0))), ?_, ?_, ?_⟩
  · rw [BlockBuilder.build_index, BlockBuilder.indexBody]
    dsimp only
    simp only [List.append_assoc]
  · rw [BlockBuilder.build_filter_bytes]
    by_cases hk : key_hashes = []
    · rw [hk]
      simp
    · rw [if_pos (by simpa [List.length_pos] using hk)]
      cases hm : binaryFuse8TryFrom key_hashes with
      | none => simp [hm]
      | some bin => simp [hm, hk]
  · intro hk
    rw [hk]
    simp

theorem index_filter_extra_witness :
    ∃ main : List Nat,
      (BlockBuilder.empty.build_index 0 CRC32_CASTAGNOLI [5]).buf =
        main ++ (if ([5] : List Nat).length > 0 then
          BlockBuilder.build_filter_bytes [5] else []) ++ [EXTRA_END] ∧
      ((if ([5] : List Nat).length > 0 then
          BlockBuilder.build_filter_bytes [5] else []) ≠ [] ↔
        ([5] : List Nat) ≠ [] ∧ (binaryFuse8TryFrom [5]).isSome) ∧
      (([5] : List Nat) = [] →
        (if ([5] : List Nat).length > 0 then
          BlockBuilder.build_filter_bytes [5] else []) = []) :=
  index_filter_extra BlockBuilder.empty 0 CRC32_CASTAGNOLI [5]

theorem key_diff_idx_le_left : ∀ a b : List Nat, key_diff_idx a b ≤ a.length := by
  intro a
  induction a with
  | nil => intro b; cases b <;> simp [key_diff_idx]
  | cons x as ih =>
    intro b
    cases b with
    | nil => simp [key_diff_idx]
    | cons z bs =>
      rw [key_diff_idx]
      split
      · simpa using ih bs
      · simp

theorem key_diff_idx_le_right : ∀ a b : List Nat, key_diff_idx a b ≤ b.length := by
  intro a
  induction a with
  | nil => intro b; cases b <;> simp [key_diff_idx]
  | cons x as ih =>
    intro b
    cases b with
    | nil => simp [key_diff_idx]
    | cons z bs =>
      rw [key_diff_idx]
      split
      · simpa using ih bs
      · simp

theorem keyLeB_cons {x y : Nat} {as bs : List Nat}
    (h : keyLeB (x :: as) (y :: bs) = true) :
    x < y ∨ (x = y ∧ keyLeB as bs = true) := by
  rw [keyLeB] at h
  by_cases h1 : x < y
  · exact Or.inl h1
  · rw [if_neg h1] at h
    by_cases h2 : x = y
    · rw [if_pos h2] at h
      exact Or.inr ⟨h2, h⟩
    · rw [if_neg h2] at h
      exact absurd h (by simp)

/-- The common prefix of `a` and `b` is no longer than any `m` sitting
between them lexicographically. -/
theorem key_diff_idx_le_mid : ∀ a m b : List Nat,
    keyLeB a m = true → keyLeB m b = true →
    key_diff_idx a b ≤ m.length := by
  intro a
  induction a with
  | nil =>
    intro m b _ _
    cases b <;> simp [key_diff_idx]
  | cons x as ih =>
    intro m b ham hmb
    cases m with
    | nil => exact absurd ham (by simp [keyLeB])
    | cons y ms =>
      cases b with
      | nil => simp [key_diff_idx]
      | cons z bs =>
        rw [key_diff_idx]
        split
        · rename_i hxz
          subst hxz
          rcases keyLeB_cons ham with h1 | ⟨h1, h1'⟩
          · rcases keyLeB_cons hmb with h2 | ⟨h2, _⟩
            · omega
            · omega
          · subst h1
            rcases keyLeB_cons hmb with h2 | ⟨_, h2'⟩
            · omega
            · simpa using ih ms bs h1' h2'
        · simp

theorem entryOffsetAcc_eq_flatMap (cpl : Nat) :
    ∀ (sizes : List Nat) (off : Nat),
      BlockBuilder.entryOffsetAcc cpl off sizes =
        (offsetsList cpl off sizes).flatMap u32le := by
  intro sizes
  induction sizes with
  | nil => intro off; rfl
  | cons s ss ih =>
    intro off
    rw [BlockBuilder.entryOffsetAcc, offsetsList, List.flatMap_cons, ih]

theorem offsetsList_shift (cpl : Nat) :
    ∀ (sizes : List Nat) (off : Nat),
      offsetsList cpl off sizes = (offsetsList cpl 0 sizes).map (off + ·) := by
  intro sizes
  induction sizes with
  | nil => intro off; rfl
  | cons s ss ih =>
    intro off
    rw [offsetsList, offsetsList, ih, ih (0 + (s - cpl))]
    simp only [List.map_cons, List.map_map, Nat.add_zero]
    congr 1
    apply List.map_congr_left
    intro x _
    simp only [Function.comp]
    omega

/-- When every chunk's byte length is its size cell minus the common
prefix, the stored offsets are exactly the cumulative chunk lengths. -/
theorem offsetsList_partial_sums (cpl : Nat) :
    ∀ (es : List VEntry),
      (∀ e ∈ es, (e.bytes cpl).length = e.esize - cpl) →
      offsetsList cpl 0 (es.map VEntry.esize) =
        (List.range es.length).map
          (fun i => EntrySlice.sumLen ((es.map (fun e => e.bytes cpl)).take i)) := by
  intro es
  induction es with
  | nil => intro _; rfl
  | cons e rest ih =>
    intro hlen
    have he : (e.bytes cpl).length = e.esize - cpl :=
      hlen e (List.mem_cons_self e rest)
    rw [List.map_cons, offsetsList, offsetsList_shift,
      ih (fun x hx => hlen x (List.mem_cons_of_mem e hx)),
      List.length_cons, List.range_succ_eq_map, List.map_cons, List.map_map,
      List.map_map]
    congr 1
    apply List.map_congr_left
    intro i _
    simp only [Function.comp]
    rw [List.map_cons, List.take_succ_cons,
      show EntrySlice.sumLen ((e.bytes cpl) :: (rest.map (fun x => x.bytes cpl)).take i) =
        (e.bytes cpl).length +
          EntrySlice.sumLen ((rest.map (fun x => x.bytes cpl)).take i) from by
        simp [EntrySlice.sumLen],
      he]
    omega

theorem offsetsList_getD_zero (cpl off : Nat) (sizes : List Nat)
    (h : sizes ≠ []) : (offsetsList cpl off sizes).getD 0 0 = off := by
  cases sizes with
  | nil => exact absurd rfl h
  | cons s ss => rfl

theorem offsetsList_getD_succ (cpl : Nat) :
    ∀ (sizes : List Nat) (off i : Nat), i + 1 < sizes.length →
      (offsetsList cpl off sizes).getD (i + 1) 0 =
        (offsetsList cpl off sizes).getD i 0 + (sizes.getD i 0 - cpl) := by
  intro sizes
  induction sizes with
  | nil => intro off i h; simp at h
  | cons s ss ih =>
    intro off i h
    cases i with
    | zero =>
      have hss : ss ≠ [] := by
        intro hc
        rw [hc] at h
        simp at h
      rw [offsetsList]
      simp only [List.getD_cons_succ, List.getD_cons_zero]
      rw [offsetsList_getD_zero cpl _ ss hss]
    | succ j =>
      have hj : j + 1 < ss.length := by simpa using h
      rw [offsetsList]
      simp only [List.getD_cons_succ]
      exact ih _ j hj

theorem ventry_bytes_length (e : VEntry) (cpl : Nat) (v : Value) (hwf : v.WF)
    (hvb : e.valBytes = v.encode)
    (hsz : e.esize = 2 + e.key.length + e.valBytes.length +
      (if e.old_ver ≠ 0 then 8 else 0))
    (hcpl : cpl ≤ e.key.length) :
    (e.bytes cpl).length = e.esize - cpl := by
  have hdec : Value.decode e.valBytes = v := by
    rw [hvb, Value.decode_encode v hwf]
  have hvl : e.valBytes.length = 10 + v.user_meta.length + v.value.length := by
    rw [hvb, Value.encode_length, Value.encoded_size]
  by_cases ho : e.old_ver ≠ 0
  · rw [if_pos ho] at hsz
    rw [VEntry.bytes, hdec, if_pos ho]
    simp [u16le, u64le]
    omega
  · rw [if_neg ho] at hsz
    rw [VEntry.bytes, hdec, if_neg ho]
    simp [u16le, u64le]
    omega

/-- The common prefix computed from the first and last keys of a sorted
block is no longer than any key of the block. -/
theorem cpl_le_key_length (keys : List (List Nat))
    (hs : keys.Pairwise (fun a b => keyLeB a b = true))
    {i : Nat} (hi : i < keys.length) :
    key_diff_idx (keys.getD 0 []) (keys.getD (keys.length - 1) []) ≤
      (keys.getD i []).length := by
  by_cases h0 : i = 0
  · subst h0
    exact key_diff_idx_le_left _ _
  · by_cases hL : i = keys.length - 1
    · subst hL
      exact key_diff_idx_le_right _ _
    · have h0' : 0 < i := Nat.pos_of_ne_zero h0
      have hL' : i < keys.length - 1 := by omega
      have hlen : keys.length - 1 < keys.length := by omega
      have hp := List.pairwise_iff_getElem.mp hs
      have hR1 : keyLeB (keys.getD 0 []) (keys.getD i []) = true := by
        rw [List.getD_eq_getElem _ _ (by omega), List.getD_eq_getElem _ _ hi]
        exact hp 0 i (by omega) hi h0'
      have hR2 : keyLeB (keys.getD i []) (keys.getD (keys.length - 1) []) =
          true := by
        rw [List.getD_eq_getElem _ _ hi, List.getD_eq_getElem _ _ hlen]
        exact hp i (keys.length - 1) hi hlen hL'
      exact key_diff_idx_le_mid _ _ _ hR1 hR2

/-- Claim C5 (amended). — For every finished block over a sorted staged
block whose `entry_sizes` cells are consistent (`2 + key_len + value_len`,
plus 8 exactly when the old slot is non-zero — i.e. no version-0
duplicate inflated a cell), the stored entry offsets satisfy
`offset[0] = 0` and `offset[i+1] = offset[i] + entry_sizes[i] − cpl`,
they equal the cumulative byte lengths of the emitted entry records, and
slicing the entries region at consecutive offsets yields exactly the
entry records in order. -/
theorem finish_block_entry_offsets (bb : BlockBuilder) (staged : List VEntry)
    (fid : Nat) (h : BlockRep bb.block staged) (hne : staged ≠ [])
    (hwf : ∀ e ∈ staged, ∃ v : Value, v.WF ∧ e.valBytes = v.encode)
    (hsz : ∀ e ∈ staged, e.esize = 2 + e.key.length + e.valBytes.length +
      (if e.old_ver ≠ 0 then 8 else 0))
    (hsorted : (staged.map VEntry.key).Pairwise (fun a b => keyLeB a b = true)) :
    ∃ (cpl : Nat) (offs : List Nat) (chunks : List (List Nat)),
      cpl = key_diff_idx ((staged.map VEntry.key).getD 0 [])
        ((staged.map VEntry.key).getD ((staged.map VEntry.key).length - 1) []) ∧
      chunks = staged.map (fun e => e.bytes cpl) ∧
      offs = offsetsList cpl 0 (staged.map VEntry.esize) ∧
      (bb.finish_block fid CRC32_CASTAGNOLI).buf =
        bb.buf ++ u32le (crc32c (vBlockBody staged)) ++ u32le staged.length ++
          offs.flatMap u32le ++ u16le cpl ++
          ((staged.map VEntry.key).getD 0 []).take cpl ++ chunks.flatten ∧
      offs.getD 0 0 = 0 ∧
      (∀ i, i + 1 < staged.length → offs.getD (i + 1) 0 =
        offs.getD i 0 + ((staged.map VEntry.esize).getD i 0 - cpl)) ∧
      offs = (List.range staged.length).map
        (fun i => EntrySlice.sumLen (chunks.take i)) ∧
      (∀ i, i < staged.length →
        bytesSlice chunks.flatten (EntrySlice.sumLen (chunks.take i))
          (EntrySlice.sumLen (chunks.take (i + 1))) = chunks.getD i []) := by
  have hlenmap : (staged.map VEntry.key).length = staged.length := by simp
  refine ⟨_, _, _, rfl, rfl, rfl, ?_, ?_, ?_, ?_, ?_⟩
  · rw [finish_block_eq h hne]
    dsimp only
    rw [serializeBlock]
    rw [if_pos rfl, vBlockBody]
    rw [entryOffsetAcc_eq_flatMap]
    have hfm : staged.flatMap (fun e => e.bytes
        (key_diff_idx ((staged.map VEntry.key).getD 0 [])
          ((staged.map VEntry.key).getD ((staged.map VEntry.key).length - 1) []))) =
        (staged.map (fun e => e.bytes
          (key_diff_idx ((staged.map VEntry.key).getD 0 [])
            ((staged.map VEntry.key).getD ((staged.map VEntry.key).length - 1) [])))).flatten :=
      rfl
    rw [hfm]
    simp only [List.append_assoc]
  · exact offsetsList_getD_zero _ _ _ (by simpa using hne)
  · intro i hi
    exact offsetsList_getD_succ _ _ 0 i (by simpa using hi)
  · apply offsetsList_partial_sums
    intro e he
    obtain ⟨v, hv, hvb⟩ := hwf e he
    apply ventry_bytes_length e _ v hv hvb (hsz e he)
    obtain ⟨i, hi, hgd⟩ := List.mem_iff_getElem.mp he
    have hi' : i < (staged.map VEntry.key).length := by simpa using hi
    have := cpl_le_key_length (staged.map VEntry.key) hsorted hi'
    rw [List.getD_eq_getElem _ _ hi'] at this
    simpa [hgd] using this
  · intro i hi
    have hi' : i < (staged.map (fun e => e.bytes
        (key_diff_idx ((staged.map VEntry.key).getD 0 [])
          ((staged.map VEntry.key).getD ((staged.map VEntry.key).length - 1) [])))).length := by
      simpa using hi
    exact EntrySlice.flatten_slice _ i hi'

theorem finish_block_entry_offsets_witness :
    BlockRep wBuilder5.block_builder.block wStaged5 ∧
    ∃ (cpl : Nat) (offs : List Nat) (chunks : List (List Nat)),
      cpl = key_diff_idx ((wStaged5.map VEntry.key).getD 0 [])
        ((wStaged5.map VEntry.key).getD
          ((wStaged5.map VEntry.key).length - 1) []) ∧
      chunks = wStaged5.map (fun e => e.bytes cpl) ∧
      offs = offsetsList cpl 0 (wStaged5.map VEntry.esize) ∧
      (wBuilder5.block_builder.finish_block 1 CRC32_CASTAGNOLI).buf =
        wBuilder5.block_builder.buf ++ u32le (crc32c (vBlockBody wStaged5)) ++
          u32le wStaged5.length ++ offs.flatMap u32le ++ u16le cpl ++
          ((wStaged5.map VEntry.key).getD 0 []).take cpl ++ chunks.flatten ∧
      offs.getD 0 0 = 0 ∧
      (∀ i, i + 1 < wStaged5.length → offs.getD (i + 1) 0 =
        offs.getD i 0 + ((wStaged5.map VEntry.esize).getD i 0 - cpl)) ∧
      offs = (List.range wStaged5.length).map
        (fun i => EntrySlice.sumLen (chunks.take i)) ∧
      (∀ i, i < wStaged5.length →
        bytesSlice chunks.flatten (EntrySlice.sumLen (chunks.take i))
          (EntrySlice.sumLen (chunks.take (i + 1))) = chunks.getD i []) := by
  refine ⟨by decide, finish_block_entry_offsets wBuilder5.block_builder wStaged5 1
    (by decide) (by decide) ?_ (by decide) (by decide)⟩
  intro e he
  rw [wStaged5] at he
  simp only [List.mem_cons, List.not_mem_nil, or_false] at he
  rcases he with rfl | rfl
  · exact ⟨⟨0, 5, [], []⟩, by decide, rfl⟩
  · exact ⟨⟨0, 7, [], []⟩, by decide, rfl⟩

/-- Claim C5 counterexample. — A version-0 duplicate bumps `entry_sizes` by 8
without filling the old slot: after adding `("a", ver 5)`, `("a", ver 0)`,
`("b", ver 1)`, the staged block has `entry_sizes = [21, 13]` and
`old_vers = [0, 0]`, the stored offsets would be `[0, 21]`, but the first
entry record actually occupies only 13 bytes — the claimed offset
difference `entry_sizes[0] − cpl = 21` does not equal the record's byte
length. -/
theorem finish_block_entry_offsets_cex :
    ((Builder.new 1 TableBuilderOptions.default).addAll
      [([97], ⟨0, 5, [], []⟩), ([97], ⟨0, 0, [], []⟩),
        ([98], ⟨0, 1, [], []⟩)]).block_builder.block.entry_sizes = [21, 13] ∧
    ((Builder.new 1 TableBuilderOptions.default).addAll
      [([97], ⟨0, 5, [], []⟩), ([97], ⟨0, 0, [], []⟩),
        ([98], ⟨0, 1, [], []⟩)]).block_builder.block.old_vers = [0, 0] ∧
    offsetsList 0 0 [21, 13] = [0, 21] ∧
    ((⟨[97], (⟨0, 5, [], []⟩ : Value).encode, 0, 21⟩ : VEntry).bytes 0).length = 13 ∧
    ¬ (21 - 0 = ((⟨[97], (⟨0, 5, [], []⟩ : Value).encode, 0, 21⟩ : VEntry).bytes 0).length) := by
  refine ⟨by decide, by decide, by decide, by decide, by decide⟩

/-- Claim C3 (amended). — Adding `("k",10), ("k",7), ("k",3), ("m",1)`: the
current stream stages one entry for `"k"` with `version = 10`,
`old_version = 7` and `META_HAS_OLD` set, plus one entry for `"m"`; but
the old-versions stream receives *both* duplicates — the entry with
version 7 (which was also promoted into the old slot) and the entry with
version 3 — and `key_hashes` holds exactly `farmhash("k")` and
`farmhash("m")`. -/
theorem duplicate_promotion_scenario :
    BlockRep ((Builder.new 1 TableBuilderOptions.default).addAll
        [([107], ⟨0, 10, [], []⟩), ([107], ⟨0, 7, [], []⟩),
          ([107], ⟨0, 3, [], []⟩), ([109], ⟨0, 1, [], []⟩)]).block_builder.block
      [⟨[107], (⟨0, 10, [], []⟩ : Value).encode, 7, 21⟩,
        ⟨[109], (⟨0, 1, [], []⟩ : Value).encode, 0, 13⟩] ∧
    (⟨[107], (⟨0, 10, [], []⟩ : Value).encode, 7, 21⟩ : VEntry).emittedMeta &&&
      META_HAS_OLD ≠ 0 ∧
    (Value.decode (⟨0, 10, [], []⟩ : Value).encode).version = 10 ∧
    BlockRep ((Builder.new 1 TableBuilderOptions.default).addAll
        [([107], ⟨0, 10, [], []⟩), ([107], ⟨0, 7, [], []⟩),
          ([107], ⟨0, 3, [], []⟩), ([109], ⟨0, 1, [], []⟩)]).old_builder.block
      [⟨[107], (⟨0, 7, [], []⟩ : Value).encode, 0, 13⟩,
        ⟨[107], (⟨0, 3, [], []⟩ : Value).encode, 0, 13⟩] ∧
    ((Builder.new 1 TableBuilderOptions.default).addAll
        [([107], ⟨0, 10, [], []⟩), ([107], ⟨0, 7, [], []⟩),
          ([107], ⟨0, 3, [], []⟩), ([109], ⟨0, 1, [], []⟩)]).key_hashes =
      [farmhashFingerprint64 [107], farmhashFingerprint64 [109]] := by
  refine ⟨by decide, by decide, by decide, by decide, by decide⟩

/-- Claim C3 counterexample. — The claim says the old-versions stream holds
exactly one entry for `"k"` (version 3, the first duplicate being only
promoted).  In the code `add` *also* appends the first duplicate
`("k", 7)` to the old builder, so the old stream holds two `"k"`
entries (versions 7 and 3), not one. -/
theorem duplicate_promotion_cex :
    BlockRep ((Builder.new 1 TableBuilderOptions.default).addAll
        [([107], ⟨0, 10, [], []⟩), ([107], ⟨0, 7, [], []⟩),
          ([107], ⟨0, 3, [], []⟩), ([109], ⟨0, 1, [], []⟩)]).old_builder.block
      [⟨[107], (⟨0, 7, [], []⟩ : Value).encode, 0, 13⟩,
        ⟨[107], (⟨0, 3, [], []⟩ : Value).encode, 0, 13⟩] ∧
    countKey [107]
      [⟨[107], (⟨0, 7, [], []⟩ : Value).encode, 0, 13⟩,
        ⟨[107], (⟨0, 3, [], []⟩ : Value).encode, 0, 13⟩] = 2 ∧
    (Value.decode (⟨0, 7, [], []⟩ : Value).encode).version = 7 ∧
    (Value.decode (⟨0, 3, [], []⟩ : Value).encode).version = 3 ∧
    ¬ (countKey [107]
      [⟨[107], (⟨0, 7, [], []⟩ : Value).encode, 0, 13⟩,
        ⟨[107], (⟨0, 3, [], []⟩ : Value).encode, 0, 13⟩] = 1) := by
  refine ⟨by decide, by decide, by decide, by decide, by decide⟩

/-- Claim C2 counterexample. — With the run `("k", ver 5), ("k", ver 0)` we
have `n = 2 ≥ 2`, yet the promoted slot receives version 0, stays zero,
and the emitted meta byte does *not* carry `META_HAS_OLD` — refuting
"`META_HAS_OLD` set iff `n ≥ 2`". -/
theorem duplicate_run_meta_cex :
    BlockRep ((Builder.new 1 TableBuilderOptions.default).addAll
        [([107], ⟨0, 5, [], []⟩), ([107], ⟨0, 0, [], []⟩)]).block_builder.block
      [⟨[107], (⟨0, 5, [], []⟩ : Value).encode, 0, 21⟩] ∧
    (⟨[107], (⟨0, 5, [], []⟩ : Value).encode, 0, 21⟩ : VEntry).emittedMeta &&&
      META_HAS_OLD = 0 ∧
    ([(⟨0, 5, [], []⟩ : Value), ⟨0, 0, [], []⟩] : List Value).length = 2 := by
  refine ⟨by decide, by decide, by decide⟩

theorem duplicate_run_streams_witness :
    ([(⟨0, 5, [], []⟩ : Value), ⟨0, 7, [], []⟩] : List Value) ≠ [] ∧
    ∃ curBlocks oldBlocks : List (List VEntry),
      (((Builder.new 1 TableBuilderOptions.default).addAll
        ([] ++ ([(⟨0, 5, [], []⟩ : Value), ⟨0, 7, [], []⟩]).map (fun x => ([107], x)) ++
          [])).finishBlocksPhase).block_builder.buf =
        (curBlocks.map (serializeBlock CRC32_CASTAGNOLI)).flatten ∧
      (((Builder.new 1 TableBuilderOptions.default).addAll
        ([] ++ ([(⟨0, 5, [], []⟩ : Value), ⟨0, 7, [], []⟩]).map (fun x => ([107], x)) ++
          [])).finishBlocksPhase).old_builder.buf =
        (oldBlocks.map (serializeBlock CRC32_CASTAGNOLI)).flatten ∧
      countKey [107] curBlocks.flatten = 1 ∧
      countKey [107] oldBlocks.flatten =
        ([(⟨0, 5, [], []⟩ : Value), ⟨0, 7, [], []⟩] : List Value).length - 1 ∧
      (∀ e ∈ curBlocks.flatten, e.key = [107] →
        (e.emittedMeta &&& META_HAS_OLD ≠ 0 ↔
          2 ≤ ([(⟨0, 5, [], []⟩ : Value), ⟨0, 7, [], []⟩] : List Value).length ∧
          ∃ x ∈ ([(⟨0, 5, [], []⟩ : Value), ⟨0, 7, [], []⟩] : List Value).drop 1,
            x.version ≠ 0)) :=
  ⟨by decide,
    duplicate_run_streams 1 TableBuilderOptions.default [] [] [107]
      [⟨0, 5, [], []⟩, ⟨0, 7, [], []⟩] (by decide)
      (by intro r hr; simp at hr) (by intro r hr; simp at hr)⟩

/-- Claim C10. — `is_empty` returns true exactly when the internal `smallest`
buffer has length zero; consequently an add-sequence whose only key is
the empty byte string leaves `is_empty() = true` even though the current
block holds a staged entry and `finish()` succeeds. -/
theorem is_empty_iff_smallest (b : Builder) :
    (b.is_empty = true ↔ b.smallest.length = 0) ∧
    ((Builder.new 1 TableBuilderOptions.default).addAll
      [([], ⟨0, 1, [], [120]⟩)]).is_empty = true ∧
    ((Builder.new 1 TableBuilderOptions.default).addAll
      [([], ⟨0, 1, [], [120]⟩)]).block_builder.block.tmp_keys.length = 1 ∧
    (((Builder.new 1 TableBuilderOptions.default).addAll
      [([], ⟨0, 1, [], [120]⟩)]).finish 0 []).isSome = true := by
  refine ⟨?_, by decide, by decide, ?_⟩
  · rw [Builder.is_empty]
    simp
  · decide

end SSTable
